import Mathlib

/-!
Shallow embedding of the `promql-cardinality` cardinality indexes.

The repository provides two indexes sharing one contract:

* `BitmapIndex` (src/cardinality/bitmap_index.go): a two-level map
  `label name → label value → roaring bitmap of series references`.
* `HyperMinHashIndex` (src/unnamed/part_004): a two-level map
  `label name → label value → HyperMinHash sketch`, fed with the 64-bit
  hash of each series' label set.

Go `map[string]T` is modelled as an association list with first-match
lookup and in-place update (`mfind` / `mset`); maps built from the empty
map by `mset` have pairwise-distinct keys, and since every fold the code
performs over a map is a commutative union/merge, any iteration order
gives the same result, so the list order is a faithful representative of
Go's unspecified map iteration order.

Roaring bitmaps of `uint64` series references are modelled as
`Finset Nat` (series references are modelled as `Nat`; the only
operations used are Add, Or, And, IsEmpty and GetCardinality).
The string interner (`internString`) returns a string equal to its
argument, so it is the identity in the value model and is elided.

The HyperMinHash sketch type comes from the external library
`github.com/axiomhq/hyperminhash`; it is kept abstract as a type `S`
together with the operations the code uses (`SketchOps`): `New`,
`Add`, `Merge`, `Cardinality`, `Intersection`.  The 8-byte big-endian
encoding of the 64-bit label-set hash is a bijection, so the element
added to a sketch is modelled as the `Nat` hash itself.
-/

/-- Go `labels.Labels`: a slice of (Name, Value) pairs. -/
abbrev Labels := List (String × String)

/-- Go `labels.MatchEqual` (iota value 0). -/
def MatchEqual : Nat := 0

/-- Go `labels.MatchNotEqual` (iota value 1). -/
def MatchNotEqual : Nat := 1

/-- Go `labels.MatchRegexp` (iota value 2). -/
def MatchRegexp : Nat := 2

/-- Go `labels.MatchNotRegexp` (iota value 3). -/
def MatchNotRegexp : Nat := 3

/-- Go `labels.Matcher`.  `mtype` models the Go `MatchType` integer (any
value is representable, not only the four enumeration constants);
`matches` models the pure regex predicate `Matcher.Matches`, which the
index code consults only for the two regex kinds. -/
structure Matcher where
  name : String
  mtype : Nat
  value : String
  Matches : String → Bool

/-- First-match lookup in an association-list model of `map[string]α`. -/
def mfind {α : Type} (m : List (String × α)) (k : String) : Option α :=
  match m with
  | [] => none
  | (k1, v) :: rest => if k1 = k then some v else mfind rest k

/-- In-place update / append in an association-list model of `map[string]α`. -/
def mset {α : Type} (m : List (String × α)) (k : String) (v : α) :
    List (String × α) :=
  match m with
  | [] => [(k, v)]
  | (k1, v1) :: rest => if k1 = k then (k, v) :: rest else (k1, v1) :: mset rest k v

/-- A roaring bitmap of series references. -/
abbrev Bitmap := Finset Nat

/-- The `BitmapIndex.index` field: `map[string]map[string]*roaring64.Bitmap`. -/
abbrev BitmapIdx := List (String × List (String × Bitmap))

/-- One iteration of the loop body of `BitmapIndex.AddSeries` for the label
pair `(n, v)`: get-or-create the value map, get-or-create the bitmap, and
`bitmap.Add(uint64(ref))`. -/
def BitmapIndex.addLabel (idx : BitmapIdx) (n v : String) (ref : Nat) : BitmapIdx :=
  let valueMap := (mfind idx n).getD []
  let bitmap := (mfind valueMap v).getD (∅ : Bitmap)
  mset idx n (mset valueMap v (insert ref bitmap))

/-- `BitmapIndex.AddSeries`: iterate over the label pairs of the series. -/
def BitmapIndex.AddSeries (idx : BitmapIdx) (lbls : Labels) (ref : Nat) : BitmapIdx :=
  lbls.foldl (fun i l => BitmapIndex.addLabel i l.1 l.2 ref) idx

/-- The `for value, bitmap := range valueMap` loops of
`getUnionBitmapForMatcher`: starting from the fresh empty `unionBitmap`,
`Or` in every bitmap whose value satisfies the predicate. -/
def unionMatching (pred : String → Bool) (vm : List (String × Bitmap)) : Bitmap :=
  vm.foldl (fun acc p => if pred p.1 then acc ∪ p.2 else acc) ∅

/-- `BitmapIndex.getUnionBitmapForMatcher`.  The Go `switch matcher.Type`
has no default case, so a `MatchType` outside the four enumeration
constants leaves `unionBitmap` empty. -/
def BitmapIndex.getUnionBitmapForMatcher (idx : BitmapIdx) (m : Matcher) : Bitmap :=
  match mfind idx m.name with
  | none => ∅
  | some valueMap =>
    if m.mtype = MatchEqual then (mfind valueMap m.value).getD ∅
    else if m.mtype = MatchRegexp then unionMatching (fun v => m.Matches v) valueMap
    else if m.mtype = MatchNotEqual then unionMatching (fun v => v != m.value) valueMap
    else if m.mtype = MatchNotRegexp then unionMatching (fun v => ! m.Matches v) valueMap
    else ∅

/-- The `for _, matcher := range matchers[1:]` loop of
`BitmapIndex.GetCardinality`: `And` each further selector bag into the
running bitmap, short-circuiting to 0 when it becomes empty. -/
def BitmapIndex.intersectLoop (idx : BitmapIdx) (acc : Bitmap) :
    List Matcher → Int
  | [] => (acc.card : Int)
  | m :: rest =>
    let acc2 := acc ∩ BitmapIndex.getUnionBitmapForMatcher idx m
    if acc2 = ∅ then 0 else BitmapIndex.intersectLoop idx acc2 rest

/-- `BitmapIndex.GetCardinality`. -/
def BitmapIndex.GetCardinality (idx : BitmapIdx) : List Matcher → Int
  | [] => 0
  | m :: rest =>
    BitmapIndex.intersectLoop idx (BitmapIndex.getUnionBitmapForMatcher idx m) rest

/-- The bitmap index built by a sequence of `AddSeries(labels, ref)` calls
on the fresh index `NewBitmapIndex()`. -/
def buildBitmap (calls : List (Labels × Nat)) : BitmapIdx :=
  calls.foldl (fun idx c => BitmapIndex.AddSeries idx c.1 c.2) []

/-- The operations the repository uses from the external
`github.com/axiomhq/hyperminhash` sketch library, kept abstract over the
sketch representation `S`: `New()`, `Add`, `Merge`, `Cardinality`,
`Intersection`.  `Cardinality` and `Intersection` return `uint64`
estimates, modelled as `Nat`. -/
structure SketchOps (S : Type) where
  empty : S
  add : S → Nat → S
  merge : S → S → S
  card : S → Nat
  inter : S → S → Nat

/-- The `HyperMinHashIndex.index` field: `map[string]map[string]*hyperminhash.Sketch`. -/
abbrev HmhIdx (S : Type) := List (String × List (String × S))

/-- One iteration of the loop body of `HyperMinHashIndex.AddSeries` for the
label pair `(n, v)`: get-or-create the value map, get-or-create the sketch,
and `hll.Add(hashBytes)`. -/
def HyperMinHashIndex.addLabel {S : Type} (ops : SketchOps S) (idx : HmhIdx S)
    (n v : String) (hashBytes : Nat) : HmhIdx S :=
  let valueMap := (mfind idx n).getD []
  let hll := (mfind valueMap v).getD ops.empty
  mset idx n (mset valueMap v (ops.add hll hashBytes))

/-- `HyperMinHashIndex.AddSeries`.  The `ref` argument is ignored by the
code (`_ storage.SeriesRef`); the element added to each sketch is the
64-bit hash `lbls.Hash()` of the label set, computed by the external
store's hash function `hashFn`. -/
def HyperMinHashIndex.AddSeries {S : Type} (ops : SketchOps S)
    (hashFn : Labels → Nat) (idx : HmhIdx S) (lbls : Labels) (_ : Nat) : HmhIdx S :=
  let hashBytes := hashFn lbls
  lbls.foldl (fun i l => HyperMinHashIndex.addLabel ops i l.1 l.2 hashBytes) idx

/-- The `for value, hll := range valueMap` loops of `getSketchForMatcher`:
starting from the fresh `hyperminhash.New()` sketch, `Merge` in every
sketch whose value satisfies the predicate (rebinding `resultSketch` to
the returned sketch each time). -/
def mergeMatching {S : Type} (ops : SketchOps S) (pred : String → Bool)
    (vm : List (String × S)) : S :=
  vm.foldl (fun acc p => if pred p.1 then ops.merge acc p.2 else acc) ops.empty

/-- `HyperMinHashIndex.getSketchForMatcher`.  As in the bitmap index, the
Go `switch matcher.Type` has no default case, so a `MatchType` outside the
enumeration leaves `resultSketch` as the fresh empty sketch.  The function
always returns a (non-nil) sketch. -/
def HyperMinHashIndex.getSketchForMatcher {S : Type} (ops : SketchOps S)
    (idx : HmhIdx S) (m : Matcher) : S :=
  match mfind idx m.name with
  | none => ops.empty
  | some valueMap =>
    if m.mtype = MatchEqual then
      match mfind valueMap m.value with
      | some hll => ops.merge ops.empty hll
      | none => ops.empty
    else if m.mtype = MatchRegexp then mergeMatching ops (fun v => m.Matches v) valueMap
    else if m.mtype = MatchNotEqual then mergeMatching ops (fun v => v != m.value) valueMap
    else if m.mtype = MatchNotRegexp then mergeMatching ops (fun v => ! m.Matches v) valueMap
    else ops.empty

/-- The inner `for j := i + 1; ...` loop of `cardinalityUsingJacaards`:
replace the running estimate by `Intersection(sketches[i], sketches[j])`
whenever that is smaller. -/
def HyperMinHashIndex.jacInner {S : Type} (ops : SketchOps S) (s : S)
    (card : Int) : List S → Int
  | [] => card
  | t :: rest =>
    let iv : Int := ((ops.inter s t : Nat) : Int)
    HyperMinHashIndex.jacInner ops s (if iv < card then iv else card) rest

/-- The outer `for i := 0; ...` loop of `cardinalityUsingJacaards` over all
unordered pairs `(i, j)` with `i < j`. -/
def HyperMinHashIndex.jacOuter {S : Type} (ops : SketchOps S) (card : Int) :
    List S → Int
  | [] => card
  | s :: rest =>
    HyperMinHashIndex.jacOuter ops (HyperMinHashIndex.jacInner ops s card rest) rest

/-- `HyperMinHashIndex.cardinalityUsingJacaards`.  (The Go nil-check on the
result of `getSketchForMatcher` is dead code: that function always returns
a non-nil sketch, so the check is not part of the value model.)  The
initial estimate is `int64(sketches[0].Cardinality())`. -/
def HyperMinHashIndex.cardinalityUsingJacaards {S : Type} (ops : SketchOps S)
    (idx : HmhIdx S) (ms : List Matcher) : Int :=
  match ms with
  | [] => 0
  | _ :: _ =>
    let sketches := ms.map (HyperMinHashIndex.getSketchForMatcher ops idx)
    HyperMinHashIndex.jacOuter ops ((ops.card (sketches.headD ops.empty) : Nat) : Int)
      sketches

/-- `HyperMinHashIndex.GetCardinality`: delegates to `cardinalityUsingJacaards`. -/
def HyperMinHashIndex.GetCardinality {S : Type} (ops : SketchOps S)
    (idx : HmhIdx S) (ms : List Matcher) : Int :=
  HyperMinHashIndex.cardinalityUsingJacaards ops idx ms

/-- `includedMatchers` of `cardinalityUsingInclusionExclusion`: the number
of indices `i < n` with bit `i` set in `subset`. -/
def bitCount (n subset : Nat) : Nat :=
  (List.range n).countP (fun i => subset.testBit i)

/-- The `for i := 0; i < n; i++` loop of
`cardinalityUsingInclusionExclusion`: merge the selector-bag sketches of
the matchers whose index bit is set in `subset` into a fresh sketch. -/
def HyperMinHashIndex.mergeSubset {S : Type} (ops : SketchOps S) (idx : HmhIdx S)
    (ms : List Matcher) (subset : Nat) : S :=
  ms.enum.foldl
    (fun acc p =>
      if subset.testBit p.1 then
        ops.merge acc (HyperMinHashIndex.getSketchForMatcher ops idx p.2)
      else acc)
    ops.empty

/-- `HyperMinHashIndex.cardinalityUsingInclusionExclusion`: loop `subset`
from 1 to `2^n - 1`, adding the subset-union cardinality estimate when the
subset has odd size and subtracting it when even. -/
def HyperMinHashIndex.cardinalityUsingInclusionExclusion {S : Type}
    (ops : SketchOps S) (idx : HmhIdx S) (ms : List Matcher) : Int :=
  match ms with
  | [] => 0
  | _ :: _ =>
    let n := ms.length
    (List.range' 1 (2 ^ n - 1)).foldl
      (fun result subset =>
        let subsetCardinality : Int :=
          ((ops.card (HyperMinHashIndex.mergeSubset ops idx ms subset) : Nat) : Int)
        if bitCount n subset % 2 = 1 then result + subsetCardinality
        else result - subsetCardinality)
      0

/-- The sketch index built by a sequence of `AddSeries(labels, ref)` calls
on the fresh index `NewHyperMinHashIndex()`. -/
def buildHmh {S : Type} (ops : SketchOps S) (hashFn : Labels → Nat)
    (calls : List (Labels × Nat)) : HmhIdx S :=
  calls.foldl (fun idx c => HyperMinHashIndex.AddSeries ops hashFn idx c.1 c.2) []

/-- Specification-side predicate, following the spec's matcher table: does
the label value `v` satisfy the matcher `m`?  Equal/NotEqual compare the
value byte-exactly with the pattern; Regex/NotRegex consult the matcher's
`Matches` predicate; a kind outside the enumeration admits nothing. -/
def admitsValue (m : Matcher) (v : String) : Bool :=
  if m.mtype = MatchEqual then v == m.value
  else if m.mtype = MatchNotEqual then v != m.value
  else if m.mtype = MatchRegexp then m.Matches v
  else if m.mtype = MatchNotRegexp then ! m.Matches v
  else false

/-- Specification-side: the distinct series references appearing in a
sequence of `AddSeries` calls. -/
def refsOf (calls : List (Labels × Nat)) : Finset Nat :=
  (calls.map Prod.snd).toFinset

/-- Specification-side: does the series reference `r` have a recorded label
pair `(m.name, v)` (from some `AddSeries` call with reference `r`) whose
value satisfies the matcher `m`? -/
def seriesMatches (calls : List (Labels × Nat)) (m : Matcher) (r : Nat) : Bool :=
  calls.any (fun c => c.2 == r && c.1.any (fun l => l.1 == m.name && admitsValue m l.2))

/-- A concrete, exact sketch implementation (the set of elements added) used
to instantiate theorems that are generic in the sketch operations. -/
def FinsetSketch : SketchOps (Finset Nat) where
  empty := ∅
  add := fun s x => insert x s
  merge := fun a b => a ∪ b
  card := fun s => s.card
  inter := fun a b => (a ∩ b).card

/-- A Go map model is well-formed when its keys are pairwise distinct; maps
built from the empty map by `mset` have this property. -/
def MapWF {α : Type} (m : List (String × α)) : Prop := (m.map Prod.fst).Nodup

/-- Well-formedness of a two-level inverted map: the outer map and every
inner map have pairwise-distinct keys. -/
def Idx2WF {α : Type} (idx : List (String × List (String × α))) : Prop :=
  MapWF idx ∧ ∀ p ∈ idx, MapWF p.2

/-- The aggregate recorded in a two-level inverted map at `(n, v)`, if any. -/
def slookup {α : Type} (idx : List (String × List (String × α))) (n v : String) :
    Option α :=
  (mfind idx n).bind (fun vm => mfind vm v)

/-- The bitmap recorded at `(n, v)`, defaulting to the empty bitmap. -/
def blookup (idx : BitmapIdx) (n v : String) : Bitmap :=
  (slookup idx n v).getD ∅

/-- The list of pairwise intersection estimates
`Intersection(sketches[i], sketches[j])` over all unordered pairs
`(i, j)` with `i < j`, in the iteration order of the code's nested loops. -/
def pairInters {S : Type} (ops : SketchOps S) : List S → List Int
  | [] => []
  | s :: rest => rest.map (fun t => ((ops.inter s t : Nat) : Int)) ++ pairInters ops rest

/-!
Heap model.  The value model above cannot talk about in-place mutation,
so the query path is embedded a second time with Go pointers made
explicit: a heap is a list of aggregates, a pointer is an index into it,
allocation appends, and the inverted map stores pointers.  Roaring's
`Or` and `And` mutate their receiver in place; hyperminhash's `Merge`
returns a fresh sketch (modelled from the spec: "Neither mutates the
underlying per-value aggregate; both return a fresh aggregate owned by
the caller" — the receiver the code mutates via `Or`/`And` is always the
freshly allocated `unionBitmap`/`intersectionBitmap`).
-/

/-- Dereference a pointer (out-of-range reads yield the default; they never
occur in the verified code paths). -/
def hget {α : Type} (h : List α) (d : α) (p : Nat) : α := h.getD p d

/-- Allocate a fresh cell, returning the grown heap and the new pointer. -/
def halloc {α : Type} (h : List α) (a : α) : List α × Nat := (h ++ [a], h.length)

/-- Roaring `unionBitmap.Or(bitmap)`: mutate the cell at `u` in place. -/
def orInto (h : List Bitmap) (u bp : Nat) : List Bitmap :=
  h.set u (hget h ∅ u ∪ hget h ∅ bp)

/-- The range-loops of `getUnionBitmapForMatcher` in the heap model:
`Or` every matching stored bitmap into the cell at `u`. -/
def orMatching (pred : String → Bool) (h : List Bitmap) (u : Nat)
    (vm : List (String × Nat)) : List Bitmap :=
  vm.foldl (fun hh p => if pred p.1 then orInto hh u p.2 else hh) h

/-- The `BitmapIndex.index` field in the heap model: the inner maps hold
pointers to heap-allocated bitmaps. -/
abbrev BitmapIdxH := List (String × List (String × Nat))

/-- The MatchEqual arm of `getUnionBitmapForMatcher` in the heap model:
`Or` the stored bitmap into the cell at `u` when the value is present. -/
def orEqual (h : List Bitmap) (u : Nat) (o : Option Nat) : List Bitmap :=
  match o with
  | some bp => orInto h u bp
  | none => h

/-- `BitmapIndex.getUnionBitmapForMatcher` in the heap model: allocate the
fresh `unionBitmap`, `Or` the selected stored bitmaps into it, and return
(the heap and) the pointer to it. -/
def BitmapIndex.getUnionBitmapForMatcherH (h : List Bitmap) (idx : BitmapIdxH)
    (m : Matcher) : List Bitmap × Nat :=
  let al := halloc h ∅
  match mfind idx m.name with
  | none => al
  | some valueMap =>
    if m.mtype = MatchEqual then
      (orEqual al.1 al.2 (mfind valueMap m.value), al.2)
    else if m.mtype = MatchRegexp then
      (orMatching (fun v => m.Matches v) al.1 al.2 valueMap, al.2)
    else if m.mtype = MatchNotEqual then
      (orMatching (fun v => v != m.value) al.1 al.2 valueMap, al.2)
    else if m.mtype = MatchNotRegexp then
      (orMatching (fun v => ! m.Matches v) al.1 al.2 valueMap, al.2)
    else al

/-- The matcher loop of `BitmapIndex.GetCardinality` in the heap model:
`intersectionBitmap.And(matcherBitmap)` mutates the cell at `u0` in place. -/
def BitmapIndex.intersectLoopH (idx : BitmapIdxH) (h : List Bitmap) (u0 : Nat) :
    List Matcher → List Bitmap × Int
  | [] => (h, ((hget h ∅ u0).card : Int))
  | m :: rest =>
    let r := BitmapIndex.getUnionBitmapForMatcherH h idx m
    let h2 := r.1.set u0 (hget r.1 ∅ u0 ∩ hget r.1 ∅ r.2)
    if hget h2 ∅ u0 = ∅ then (h2, 0)
    else BitmapIndex.intersectLoopH idx h2 u0 rest

/-- `BitmapIndex.GetCardinality` in the heap model: returns the final heap
together with the result. -/
def BitmapIndex.GetCardinalityH (h : List Bitmap) (idx : BitmapIdxH) :
    List Matcher → List Bitmap × Int
  | [] => (h, 0)
  | m :: rest =>
    let r := BitmapIndex.getUnionBitmapForMatcherH h idx m
    BitmapIndex.intersectLoopH idx r.1 r.2 rest

/-- Hyperminhash `resultSketch.Merge(hll)` in the heap model: allocate a
fresh sketch holding the merge (modelled from the spec: merge returns a
fresh aggregate owned by the caller) and return the new pointer. -/
def mergeAlloc {S : Type} (ops : SketchOps S) (h : List S) (rp hp : Nat) :
    List S × Nat :=
  halloc h (ops.merge (hget h ops.empty rp) (hget h ops.empty hp))

/-- The range-loops of `getSketchForMatcher` in the heap model: rebind
`resultSketch` to the freshly merged sketch for every matching value. -/
def mergeAllocMatching {S : Type} (ops : SketchOps S) (pred : String → Bool)
    (h : List S) (rp : Nat) (vm : List (String × Nat)) : List S × Nat :=
  vm.foldl (fun acc p => if pred p.1 then mergeAlloc ops acc.1 acc.2 p.2 else acc)
    (h, rp)

/-- The `HyperMinHashIndex.index` field in the heap model. -/
abbrev HmhIdxH := List (String × List (String × Nat))

/-- The MatchEqual arm of `getSketchForMatcher` in the heap model: merge
the single stored sketch into a fresh result when the value is present. -/
def mergeEqual {S : Type} (ops : SketchOps S) (h : List S) (rp : Nat)
    (o : Option Nat) : List S × Nat :=
  match o with
  | some hp => mergeAlloc ops h rp hp
  | none => (h, rp)

/-- `HyperMinHashIndex.getSketchForMatcher` in the heap model. -/
def HyperMinHashIndex.getSketchForMatcherH {S : Type} (ops : SketchOps S)
    (h : List S) (idx : HmhIdxH) (m : Matcher) : List S × Nat :=
  let al := halloc h ops.empty
  match mfind idx m.name with
  | none => al
  | some valueMap =>
    if m.mtype = MatchEqual then
      mergeEqual ops al.1 al.2 (mfind valueMap m.value)
    else if m.mtype = MatchRegexp then
      mergeAllocMatching ops (fun v => m.Matches v) al.1 al.2 valueMap
    else if m.mtype = MatchNotEqual then
      mergeAllocMatching ops (fun v => v != m.value) al.1 al.2 valueMap
    else if m.mtype = MatchNotRegexp then
      mergeAllocMatching ops (fun v => ! m.Matches v) al.1 al.2 valueMap
    else al

/-- The sketch-collection loop of `cardinalityUsingJacaards` in the heap
model: one `getSketchForMatcher` call per matcher, threading the heap. -/
def HyperMinHashIndex.sketchesLoopH {S : Type} (ops : SketchOps S)
    (h : List S) (idx : HmhIdxH) : List Matcher → List S × List Nat
  | [] => (h, [])
  | m :: rest =>
    let r := HyperMinHashIndex.getSketchForMatcherH ops h idx m
    let q := HyperMinHashIndex.sketchesLoopH ops r.1 idx rest
    (q.1, r.2 :: q.2)

/-- `HyperMinHashIndex.cardinalityUsingJacaards` in the heap model:
`Cardinality` and `Intersection` are pure reads of the final heap. -/
def HyperMinHashIndex.cardinalityUsingJacaardsH {S : Type} (ops : SketchOps S)
    (h : List S) (idx : HmhIdxH) (ms : List Matcher) : List S × Int :=
  match ms with
  | [] => (h, 0)
  | _ :: _ =>
    let r := HyperMinHashIndex.sketchesLoopH ops h idx ms
    let sketches := r.2.map (hget r.1 ops.empty)
    (r.1,
      HyperMinHashIndex.jacOuter ops
        ((ops.card (sketches.headD ops.empty) : Nat) : Int) sketches)

/-- `HyperMinHashIndex.GetCardinality` in the heap model. -/
def HyperMinHashIndex.GetCardinalityH {S : Type} (ops : SketchOps S)
    (h : List S) (idx : HmhIdxH) (ms : List Matcher) : List S × Int :=
  HyperMinHashIndex.cardinalityUsingJacaardsH ops h idx ms

/-- Heap extension: every cell that existed before still holds the same
aggregate afterwards (new cells may have been allocated past the end). -/
def HeapExt {alpha : Type} (d : alpha) (h h' : List alpha) : Prop :=
  h.length ≤ h'.length ∧ ∀ p, p < h.length → hget h' d p = hget h d p

/-!  Lemmas about the association-list map model. -/

theorem mfind_mset {α : Type} (m : List (String × α)) (k q : String) (v : α) :
    mfind (mset m k v) q = if k = q then some v else mfind m q := by
  induction m with
  | nil => by_cases h : k = q <;> simp [mset, mfind, h]
  | cons p rest ih =>
    obtain ⟨k1, v1⟩ := p
    by_cases h1 : k1 = k
    · subst h1
      by_cases h2 : k1 = q <;> simp [mset, mfind, h2]
    · by_cases h2 : k1 = q
      · subst h2
        have hkq : ¬ k = k1 := fun hc => h1 hc.symm
        simp [mset, mfind, h1, hkq]
      · simp [mset, mfind, h1, h2, ih]

theorem mem_of_mfind {α : Type} {m : List (String × α)} {k : String} {v : α}
    (h : mfind m k = some v) : (k, v) ∈ m := by
  induction m with
  | nil => simp [mfind] at h
  | cons p rest ih =>
    obtain ⟨k1, v1⟩ := p
    by_cases h1 : k1 = k
    · subst h1
      simp [mfind] at h
      simp [h]
    · simp [mfind, h1] at h
      exact List.mem_cons_of_mem _ (ih h)

theorem mfind_of_mem {α : Type} {m : List (String × α)} {k : String} {v : α}
    (hwf : MapWF m) (h : (k, v) ∈ m) : mfind m k = some v := by
  induction m with
  | nil => simp at h
  | cons p rest ih =>
    obtain ⟨k1, v1⟩ := p
    have hwf' : MapWF rest := by
      have := hwf
      simp only [MapWF, List.map_cons, List.nodup_cons] at this
      exact this.2
    rcases List.mem_cons.1 h with h2 | h2
    · cases h2
      simp [mfind]
    · by_cases h1 : k1 = k
      · exfalso
        subst h1
        have hk : k1 ∈ rest.map Prod.fst := List.mem_map_of_mem Prod.fst h2
        have := hwf
        simp only [MapWF, List.map_cons, List.nodup_cons] at this
        exact this.1 hk
      · simp only [mfind, h1, if_false]
        exact ih hwf' h2

theorem mem_mset {α : Type} {m : List (String × α)} {k : String} {v : α}
    {p : String × α} (h : p ∈ mset m k v) : p ∈ m ∨ p = (k, v) := by
  induction m with
  | nil =>
    simp [mset] at h
    simp [h]
  | cons q rest ih =>
    obtain ⟨k1, v1⟩ := q
    by_cases h1 : k1 = k
    · simp [mset, h1] at h
      rcases h with h | h
      · right; simp [h]
      · left; simp [h]
    · simp [mset, h1] at h
      rcases h with h | h
      · left; simp [h]
      · rcases ih h with h2 | h2
        · left; simp [h2]
        · right; exact h2

theorem mapwf_mset {α : Type} {m : List (String × α)} (k : String) (v : α)
    (hwf : MapWF m) : MapWF (mset m k v) := by
  induction m with
  | nil => simp [mset, MapWF]
  | cons q rest ih =>
    obtain ⟨k1, v1⟩ := q
    simp only [MapWF, List.map_cons, List.nodup_cons] at hwf
    by_cases h1 : k1 = k
    · subst h1
      have hms : mset ((k1, v1) :: rest) k1 v = (k1, v) :: rest := by simp [mset]
      rw [hms]
      simp only [MapWF, List.map_cons, List.nodup_cons]
      exact hwf
    · simp only [mset, if_neg h1, MapWF, List.map_cons, List.nodup_cons]
      refine ⟨?_, ih hwf.2⟩
      intro hk
      rcases List.mem_map.1 hk with ⟨p, hp, hfst⟩
      rcases mem_mset hp with h2 | h2
      · exact hwf.1 (hfst ▸ List.mem_map_of_mem Prod.fst h2)
      · subst h2
        exact h1 hfst.symm

/-!  Lemmas about the two-level inverted map and `AddSeries`. -/

theorem addLabel_eq (idx : BitmapIdx) (n v : String) (ref : Nat) :
    BitmapIndex.addLabel idx n v ref =
      mset idx n (mset ((mfind idx n).getD []) v
        (insert ref ((mfind ((mfind idx n).getD []) v).getD ∅))) := rfl

theorem blookup_eq_getD (idx : BitmapIdx) (n v : String) :
    blookup idx n v = (mfind ((mfind idx n).getD []) v).getD ∅ := by
  unfold blookup slookup
  cases mfind idx n <;> simp [mfind]

theorem idx2wf_mset2 {α : Type} {idx : List (String × List (String × α))}
    (n v : String) (a : α) (hwf : Idx2WF idx) :
    Idx2WF (mset idx n (mset ((mfind idx n).getD []) v a)) := by
  obtain ⟨h1, h2⟩ := hwf
  refine ⟨mapwf_mset _ _ h1, ?_⟩
  intro p hp
  rcases mem_mset hp with hmem | heq
  · exact h2 p hmem
  · subst heq
    apply mapwf_mset
    cases hf : mfind idx n with
    | none => simp [MapWF]
    | some vm =>
      simp only [hf, Option.getD_some]
      exact h2 (n, vm) (mem_of_mfind hf)

theorem slookup_mset2 {α : Type} (idx : List (String × List (String × α)))
    (n v n' v' : String) (a : α) :
    slookup (mset idx n (mset ((mfind idx n).getD []) v a)) n' v' =
      if n = n' ∧ v = v' then some a else slookup idx n' v' := by
  unfold slookup
  rw [mfind_mset]
  by_cases hn : n = n'
  · subst hn
    by_cases hv : v = v'
    · subst hv
      simp [mfind_mset]
    · cases hf : mfind idx n with
      | none => simp [hv, mfind_mset, mfind]
      | some vm => simp [hv, mfind_mset]
  · have hc : ¬ (n = n' ∧ v = v') := fun hc => hn hc.1
    simp [hn, hc]

theorem blookup_addLabel (idx : BitmapIdx) (n v n' v' : String) (ref : Nat) :
    blookup (BitmapIndex.addLabel idx n v ref) n' v' =
      if n = n' ∧ v = v' then insert ref (blookup idx n v) else blookup idx n' v' := by
  rw [addLabel_eq]
  have hL : blookup (mset idx n (mset ((mfind idx n).getD []) v
      (insert ref ((mfind ((mfind idx n).getD []) v).getD ∅)))) n' v' =
      (if n = n' ∧ v = v' then
        some (insert ref ((mfind ((mfind idx n).getD []) v).getD ∅))
       else slookup idx n' v').getD ∅ := by
    unfold blookup
    rw [slookup_mset2]
  rw [hL]
  by_cases h : n = n' ∧ v = v'
  · rw [if_pos h, if_pos h, Option.getD_some, ← blookup_eq_getD]
  · rw [if_neg h, if_neg h]
    rfl

theorem idx2wf_addLabel (idx : BitmapIdx) (n v : String) (ref : Nat)
    (hwf : Idx2WF idx) : Idx2WF (BitmapIndex.addLabel idx n v ref) := by
  rw [addLabel_eq]
  exact idx2wf_mset2 n v _ hwf

theorem idx2wf_AddSeries (idx : BitmapIdx) (lbls : Labels) (ref : Nat)
    (hwf : Idx2WF idx) : Idx2WF (BitmapIndex.AddSeries idx lbls ref) := by
  induction lbls generalizing idx with
  | nil => exact hwf
  | cons l rest ih =>
    exact ih (BitmapIndex.addLabel idx l.1 l.2 ref) (idx2wf_addLabel _ _ _ _ hwf)

theorem idx2wf_buildBitmap (calls : List (Labels × Nat)) :
    Idx2WF (buildBitmap calls) := by
  have hgen : ∀ idx : BitmapIdx, Idx2WF idx →
      Idx2WF (calls.foldl (fun i c => BitmapIndex.AddSeries i c.1 c.2) idx) := by
    induction calls with
    | nil => intro idx h; exact h
    | cons c rest ih =>
      intro idx h
      exact ih _ (idx2wf_AddSeries _ _ _ h)
  exact hgen [] ⟨List.nodup_nil, by simp⟩

theorem mem_blookup_AddSeries (idx : BitmapIdx) (lbls : Labels) (ref r : Nat)
    (n v : String) :
    r ∈ blookup (BitmapIndex.AddSeries idx lbls ref) n v ↔
      r ∈ blookup idx n v ∨ (r = ref ∧ (n, v) ∈ lbls) := by
  induction lbls generalizing idx with
  | nil => simp [BitmapIndex.AddSeries]
  | cons l rest ih =>
    have hstep : BitmapIndex.AddSeries idx (l :: rest) ref =
        BitmapIndex.AddSeries (BitmapIndex.addLabel idx l.1 l.2 ref) rest ref := rfl
    rw [hstep, ih, blookup_addLabel]
    by_cases h : l.1 = n ∧ l.2 = v
    · obtain ⟨hn, hv⟩ := h
      have hl : l = (n, v) := by
        rw [Prod.ext_iff]
        exact ⟨hn, hv⟩
      rw [if_pos ⟨hn, hv⟩, hn, hv]
      simp only [Finset.mem_insert, hl, List.mem_cons]
      constructor
      · rintro ((h1 | h1) | ⟨h1, h2⟩)
        · exact Or.inr ⟨h1, Or.inl trivial⟩
        · exact Or.inl h1
        · exact Or.inr ⟨h1, Or.inr h2⟩
      · rintro (h1 | ⟨h1, h2 | h2⟩)
        · exact Or.inl (Or.inr h1)
        · exact Or.inl (Or.inl h1)
        · exact Or.inr ⟨h1, h2⟩
    · have hne : (n, v) ≠ l := by
        intro hc
        rw [Prod.ext_iff] at hc
        exact h ⟨hc.1.symm, hc.2.symm⟩
      rw [if_neg h]
      simp only [List.mem_cons]
      constructor
      · rintro (h1 | ⟨h1, h2⟩)
        · exact Or.inl h1
        · exact Or.inr ⟨h1, Or.inr h2⟩
      · rintro (h1 | ⟨h1, h2 | h2⟩)
        · exact Or.inl h1
        · exact absurd h2 hne
        · exact Or.inr ⟨h1, h2⟩

theorem mem_blookup_buildBitmap (calls : List (Labels × Nat)) (n v : String)
    (r : Nat) :
    r ∈ blookup (buildBitmap calls) n v ↔
      ∃ c ∈ calls, c.2 = r ∧ (n, v) ∈ c.1 := by
  have hgen : ∀ idx : BitmapIdx,
      r ∈ blookup (calls.foldl (fun i c => BitmapIndex.AddSeries i c.1 c.2) idx) n v ↔
        r ∈ blookup idx n v ∨ ∃ c ∈ calls, c.2 = r ∧ (n, v) ∈ c.1 := by
    induction calls with
    | nil => intro idx; simp
    | cons c rest ih =>
      intro idx
      rw [List.foldl_cons, ih, mem_blookup_AddSeries]
      simp only [List.mem_cons]
      constructor
      · rintro ((h1 | ⟨heq, hmem⟩) | ⟨d, hd, h2, h3⟩)
        · exact Or.inl h1
        · exact Or.inr ⟨c, Or.inl rfl, heq.symm, hmem⟩
        · exact Or.inr ⟨d, Or.inr hd, h2, h3⟩
      · rintro (h1 | ⟨d, hd | hd, h2, h3⟩)
        · exact Or.inl (Or.inl h1)
        · subst hd
          exact Or.inl (Or.inr ⟨h2.symm, h3⟩)
        · exact Or.inr ⟨d, hd, h2, h3⟩
  have hempty : blookup [] n v = ∅ := rfl
  rw [buildBitmap, hgen, hempty]
  simp

/-!  Characterization of the selector bag and the intersection loop. -/

theorem mem_foldl_union (pred : String → Bool) (vm : List (String × Bitmap))
    (acc : Bitmap) (r : Nat) :
    r ∈ vm.foldl (fun acc p => if pred p.1 then acc ∪ p.2 else acc) acc ↔
      r ∈ acc ∨ ∃ p ∈ vm, pred p.1 = true ∧ r ∈ p.2 := by
  induction vm generalizing acc with
  | nil => simp
  | cons q rest ih =>
    rw [List.foldl_cons]
    by_cases hq : pred q.1
    · rw [if_pos hq, ih]
      simp only [Finset.mem_union, List.mem_cons]
      constructor
      · rintro ((h1 | h1) | ⟨p, hp, h2, h3⟩)
        · exact Or.inl h1
        · exact Or.inr ⟨q, Or.inl rfl, hq, h1⟩
        · exact Or.inr ⟨p, Or.inr hp, h2, h3⟩
      · rintro (h1 | ⟨p, hp | hp, h2, h3⟩)
        · exact Or.inl (Or.inl h1)
        · subst hp
          exact Or.inl (Or.inr h3)
        · exact Or.inr ⟨p, hp, h2, h3⟩
    · rw [if_neg hq, ih]
      simp only [List.mem_cons]
      constructor
      · rintro (h1 | ⟨p, hp, h2, h3⟩)
        · exact Or.inl h1
        · exact Or.inr ⟨p, Or.inr hp, h2, h3⟩
      · rintro (h1 | ⟨p, hp | hp, h2, h3⟩)
        · exact Or.inl h1
        · subst hp
          exact absurd h2 (by simpa using hq)
        · exact Or.inr ⟨p, hp, h2, h3⟩

theorem mem_unionMatching (pred : String → Bool) (vm : List (String × Bitmap))
    (r : Nat) :
    r ∈ unionMatching pred vm ↔ ∃ p ∈ vm, pred p.1 = true ∧ r ∈ p.2 := by
  rw [unionMatching, mem_foldl_union]
  simp

theorem mem_vm_iff_mfind {vm : List (String × Bitmap)} (hvm : MapWF vm)
    (pred : String → Bool) (r : Nat) :
    (∃ p ∈ vm, pred p.1 = true ∧ r ∈ p.2) ↔
      ∃ v, pred v = true ∧ r ∈ (mfind vm v).getD ∅ := by
  constructor
  · rintro ⟨⟨v, bm⟩, hmem, hpred, hr⟩
    refine ⟨v, hpred, ?_⟩
    rw [mfind_of_mem hvm hmem]
    exact hr
  · rintro ⟨v, hpred, hr⟩
    cases hf : mfind vm v with
    | none =>
      rw [hf] at hr
      simp at hr
    | some bm =>
      rw [hf] at hr
      exact ⟨(v, bm), mem_of_mfind hf, hpred, by simpa using hr⟩

theorem getUnion_none {idx : BitmapIdx} {m : Matcher}
    (hf : mfind idx m.name = none) :
    BitmapIndex.getUnionBitmapForMatcher idx m = ∅ := by
  unfold BitmapIndex.getUnionBitmapForMatcher
  rw [hf]

theorem getUnion_some {idx : BitmapIdx} {m : Matcher}
    {vm : List (String × Bitmap)} (hf : mfind idx m.name = some vm) :
    BitmapIndex.getUnionBitmapForMatcher idx m =
      (if m.mtype = MatchEqual then (mfind vm m.value).getD ∅
       else if m.mtype = MatchRegexp then unionMatching (fun v => m.Matches v) vm
       else if m.mtype = MatchNotEqual then unionMatching (fun v => v != m.value) vm
       else if m.mtype = MatchNotRegexp then unionMatching (fun v => ! m.Matches v) vm
       else ∅) := by
  unfold BitmapIndex.getUnionBitmapForMatcher
  rw [hf]

theorem admitsValue_eq {m : Matcher} (h : m.mtype = MatchEqual) (v : String) :
    admitsValue m v = (v == m.value) := by
  unfold admitsValue
  rw [if_pos h]

theorem admitsValue_ne {m : Matcher} (h : m.mtype = MatchNotEqual) (v : String) :
    admitsValue m v = (v != m.value) := by
  have h0 : ¬ m.mtype = MatchEqual := by rw [h]; decide
  unfold admitsValue
  rw [if_neg h0, if_pos h]

theorem admitsValue_re {m : Matcher} (h : m.mtype = MatchRegexp) (v : String) :
    admitsValue m v = m.Matches v := by
  have h0 : ¬ m.mtype = MatchEqual := by rw [h]; decide
  have h1 : ¬ m.mtype = MatchNotEqual := by rw [h]; decide
  unfold admitsValue
  rw [if_neg h0, if_neg h1, if_pos h]

theorem admitsValue_nre {m : Matcher} (h : m.mtype = MatchNotRegexp) (v : String) :
    admitsValue m v = ! m.Matches v := by
  have h0 : ¬ m.mtype = MatchEqual := by rw [h]; decide
  have h1 : ¬ m.mtype = MatchNotEqual := by rw [h]; decide
  have h2 : ¬ m.mtype = MatchRegexp := by rw [h]; decide
  unfold admitsValue
  rw [if_neg h0, if_neg h1, if_neg h2, if_pos h]

theorem admitsValue_other {m : Matcher} (h0 : ¬ m.mtype = MatchEqual)
    (h1 : ¬ m.mtype = MatchNotEqual) (h2 : ¬ m.mtype = MatchRegexp)
    (h3 : ¬ m.mtype = MatchNotRegexp) (v : String) :
    admitsValue m v = false := by
  unfold admitsValue
  rw [if_neg h0, if_neg h1, if_neg h2, if_neg h3]

theorem mem_unionMatching_mfind {vm : List (String × Bitmap)} (hvm : MapWF vm)
    (pred : String → Bool) (r : Nat) :
    r ∈ unionMatching pred vm ↔ ∃ v, pred v = true ∧ r ∈ (mfind vm v).getD ∅ :=
  (mem_unionMatching pred vm r).trans (mem_vm_iff_mfind hvm pred r)

theorem mem_getUnionBitmapForMatcher {idx : BitmapIdx} (hwf : Idx2WF idx)
    (m : Matcher) (r : Nat) :
    r ∈ BitmapIndex.getUnionBitmapForMatcher idx m ↔
      ∃ v, admitsValue m v = true ∧ r ∈ blookup idx m.name v := by
  cases hf : mfind idx m.name with
  | none =>
    rw [getUnion_none hf]
    simp only [Finset.not_mem_empty, false_iff]
    rintro ⟨v, hv, hr⟩
    rw [blookup_eq_getD, hf] at hr
    simp [mfind] at hr
  | some vm =>
    rw [getUnion_some hf]
    have hvm : MapWF vm := hwf.2 (m.name, vm) (mem_of_mfind hf)
    have hbl : ∀ v, blookup idx m.name v = (mfind vm v).getD ∅ := by
      intro v
      rw [blookup_eq_getD, hf]
      rfl
    by_cases h0 : m.mtype = MatchEqual
    · rw [if_pos h0]
      simp only [admitsValue_eq h0, hbl]
      constructor
      · intro hr
        exact ⟨m.value, by simp, hr⟩
      · rintro ⟨v, hv, hr⟩
        have hveq : v = m.value := by simpa using hv
        subst hveq
        exact hr
    · by_cases h2 : m.mtype = MatchRegexp
      · rw [if_neg h0, if_pos h2, mem_unionMatching_mfind hvm]
        simp only [admitsValue_re h2, hbl]
      · by_cases h1 : m.mtype = MatchNotEqual
        · rw [if_neg h0, if_neg h2, if_pos h1, mem_unionMatching_mfind hvm]
          simp only [admitsValue_ne h1, hbl]
        · by_cases h3 : m.mtype = MatchNotRegexp
          · rw [if_neg h0, if_neg h2, if_neg h1, if_pos h3,
              mem_unionMatching_mfind hvm]
            simp only [admitsValue_nre h3, hbl]
          · rw [if_neg h0, if_neg h2, if_neg h1, if_neg h3]
            simp only [admitsValue_other h0 h1 h2 h3]
            simp

theorem foldl_inter_subset (idx : BitmapIdx) (ms : List Matcher) (acc : Bitmap) :
    ms.foldl (fun a m => a ∩ BitmapIndex.getUnionBitmapForMatcher idx m) acc ⊆ acc := by
  induction ms generalizing acc with
  | nil => exact Finset.Subset.refl acc
  | cons m rest ih =>
    rw [List.foldl_cons]
    exact (ih _).trans Finset.inter_subset_left

theorem mem_foldl_inter (idx : BitmapIdx) (ms : List Matcher) (acc : Bitmap)
    (r : Nat) :
    r ∈ ms.foldl (fun a m => a ∩ BitmapIndex.getUnionBitmapForMatcher idx m) acc ↔
      r ∈ acc ∧ ∀ m ∈ ms, r ∈ BitmapIndex.getUnionBitmapForMatcher idx m := by
  induction ms generalizing acc with
  | nil => simp
  | cons m rest ih =>
    rw [List.foldl_cons, ih]
    simp only [Finset.mem_inter, List.mem_cons]
    constructor
    · rintro ⟨⟨h1, h2⟩, h3⟩
      refine ⟨h1, fun x hx => ?_⟩
      rcases hx with h | h
      · subst h
        exact h2
      · exact h3 x h
    · rintro ⟨h1, h2⟩
      exact ⟨⟨h1, h2 m (Or.inl rfl)⟩, fun x hx => h2 x (Or.inr hx)⟩

theorem intersectLoop_card (idx : BitmapIdx) (acc : Bitmap) (ms : List Matcher) :
    BitmapIndex.intersectLoop idx acc ms =
      ((ms.foldl (fun a m => a ∩ BitmapIndex.getUnionBitmapForMatcher idx m)
        acc).card : Int) := by
  induction ms generalizing acc with
  | nil => rfl
  | cons m rest ih =>
    have hstep : BitmapIndex.intersectLoop idx acc (m :: rest) =
        (if acc ∩ BitmapIndex.getUnionBitmapForMatcher idx m = ∅ then 0
         else BitmapIndex.intersectLoop idx
           (acc ∩ BitmapIndex.getUnionBitmapForMatcher idx m) rest) := rfl
    rw [hstep, List.foldl_cons]
    by_cases h : acc ∩ BitmapIndex.getUnionBitmapForMatcher idx m = ∅
    · rw [if_pos h, h]
      have hz : rest.foldl
          (fun a m => a ∩ BitmapIndex.getUnionBitmapForMatcher idx m) ∅ = ∅ :=
        Finset.subset_empty.1 (foldl_inter_subset idx rest ∅)
      rw [hz]
      simp
    · rw [if_neg h, ih]

theorem getCardinality_cons (idx : BitmapIdx) (m0 : Matcher) (rest : List Matcher) :
    BitmapIndex.GetCardinality idx (m0 :: rest) =
      ((rest.foldl (fun a m => a ∩ BitmapIndex.getUnionBitmapForMatcher idx m)
        (BitmapIndex.getUnionBitmapForMatcher idx m0)).card : Int) := by
  have hstep : BitmapIndex.GetCardinality idx (m0 :: rest) =
      BitmapIndex.intersectLoop idx
        (BitmapIndex.getUnionBitmapForMatcher idx m0) rest := rfl
  rw [hstep]
  exact intersectLoop_card idx _ rest

theorem mem_refsOf (calls : List (Labels × Nat)) (r : Nat) :
    r ∈ refsOf calls ↔ ∃ c ∈ calls, c.2 = r := by
  unfold refsOf
  simp

theorem mem_bag_buildBitmap (calls : List (Labels × Nat)) (m : Matcher) (r : Nat) :
    r ∈ BitmapIndex.getUnionBitmapForMatcher (buildBitmap calls) m ↔
      seriesMatches calls m r = true := by
  rw [mem_getUnionBitmapForMatcher (idx2wf_buildBitmap calls)]
  unfold seriesMatches
  rw [List.any_eq_true]
  constructor
  · rintro ⟨v, hv, hr⟩
    rw [mem_blookup_buildBitmap] at hr
    obtain ⟨c, hc, hcr, hmem⟩ := hr
    refine ⟨c, hc, ?_⟩
    rw [Bool.and_eq_true]
    refine ⟨by simpa using hcr, ?_⟩
    rw [List.any_eq_true]
    refine ⟨(m.name, v), hmem, ?_⟩
    simp [hv]
  · rintro ⟨c, hc, hcond⟩
    rw [Bool.and_eq_true] at hcond
    obtain ⟨h1, h2⟩ := hcond
    rw [List.any_eq_true] at h2
    obtain ⟨l, hl, hlp⟩ := h2
    rw [Bool.and_eq_true] at hlp
    have hln : l.1 = m.name := by simpa using hlp.1
    refine ⟨l.2, hlp.2, ?_⟩
    rw [mem_blookup_buildBitmap]
    refine ⟨c, hc, by simpa using h1, ?_⟩
    have hl2 : (m.name, l.2) = l := by
      rw [Prod.ext_iff]
      exact ⟨hln.symm, rfl⟩
    rw [hl2]
    exact hl

/-- C1: for every sequence of `AddSeries(labels, ref)` calls on a fresh
`BitmapIndex` and every non-empty matcher list, `GetCardinality` returns the
number of distinct series references having, for each matcher, a recorded
label pair whose name is the matcher's name and whose value satisfies it
(Equal/NotEqual byte-exactly against the pattern, Regex/NotRegex by the
matcher's `Matches` predicate). -/
theorem bitmap_index_exactness (calls : List (Labels × Nat)) (ms : List Matcher)
    (hne : ms ≠ []) :
    BitmapIndex.GetCardinality (buildBitmap calls) ms =
      (((refsOf calls).filter
        (fun r => ms.all (fun m => seriesMatches calls m r))).card : Int) := by
  obtain ⟨m0, rest, rfl⟩ := List.exists_cons_of_ne_nil hne
  rw [getCardinality_cons]
  congr 1
  congr 1
  apply Finset.ext
  intro r
  rw [mem_foldl_inter, Finset.mem_filter]
  constructor
  · rintro ⟨h0, hrest⟩
    have h0' := (mem_bag_buildBitmap calls m0 r).1 h0
    have hall : ∀ m ∈ m0 :: rest, seriesMatches calls m r = true := by
      intro m hm
      rcases List.mem_cons.1 hm with h | h
      · subst h
        exact h0'
      · exact (mem_bag_buildBitmap calls m r).1 (hrest m h)
    refine ⟨?_, List.all_eq_true.2 hall⟩
    unfold seriesMatches at h0'
    rw [List.any_eq_true] at h0'
    obtain ⟨c, hc, hcond⟩ := h0'
    rw [mem_refsOf]
    rw [Bool.and_eq_true] at hcond
    exact ⟨c, hc, by simpa using hcond.1⟩
  · rintro ⟨href, hall⟩
    rw [List.all_eq_true] at hall
    exact ⟨(mem_bag_buildBitmap calls m0 r).2 (hall m0 (List.mem_cons_self _ _)),
      fun m hm => (mem_bag_buildBitmap calls m r).2
        (hall m (List.mem_cons_of_mem _ hm))⟩

/-- Witness for C1: one Equal matcher over a two-series ingest. -/
theorem bitmap_index_exactness_witness :
    ([Matcher.mk "a" 0 "1" (fun _ => false)] : List Matcher) ≠ [] ∧
    BitmapIndex.GetCardinality
        (buildBitmap [([("a", "1")], 1), ([("a", "2")], 2)])
        [Matcher.mk "a" 0 "1" (fun _ => false)] =
      (((refsOf [([("a", "1")], 1), ([("a", "2")], 2)]).filter
        (fun r => ([Matcher.mk "a" 0 "1" (fun _ => false)]).all
          (fun m => seriesMatches [([("a", "1")], 1), ([("a", "2")], 2)] m r))).card
        : Int) :=
  ⟨by simp, bitmap_index_exactness _ _ (by simp)⟩

/-- C2: with an empty matcher list both indexes return 0, whatever the
index state. -/
theorem getCardinality_empty_matchers :
    (∀ idx : BitmapIdx, BitmapIndex.GetCardinality idx [] = 0) ∧
    ∀ (S : Type) (ops : SketchOps S) (idx : HmhIdx S),
      HyperMinHashIndex.GetCardinality ops idx [] = 0 :=
  ⟨fun _ => rfl, fun _ _ _ => rfl⟩

theorem getUnion_other {idx : BitmapIdx} {m : Matcher}
    (h0 : ¬ m.mtype = MatchEqual) (h1 : ¬ m.mtype = MatchNotEqual)
    (h2 : ¬ m.mtype = MatchRegexp) (h3 : ¬ m.mtype = MatchNotRegexp) :
    BitmapIndex.getUnionBitmapForMatcher idx m = ∅ := by
  cases hf : mfind idx m.name with
  | none => exact getUnion_none hf
  | some vm => rw [getUnion_some hf, if_neg h0, if_neg h2, if_neg h1, if_neg h3]

theorem getSketch_none {S : Type} {ops : SketchOps S} {idx : HmhIdx S}
    {m : Matcher} (hf : mfind idx m.name = none) :
    HyperMinHashIndex.getSketchForMatcher ops idx m = ops.empty := by
  unfold HyperMinHashIndex.getSketchForMatcher
  rw [hf]

theorem getSketch_some {S : Type} {ops : SketchOps S} {idx : HmhIdx S}
    {m : Matcher} {vm : List (String × S)} (hf : mfind idx m.name = some vm) :
    HyperMinHashIndex.getSketchForMatcher ops idx m =
      (if m.mtype = MatchEqual then
        (match mfind vm m.value with
         | some hll => ops.merge ops.empty hll
         | none => ops.empty)
       else if m.mtype = MatchRegexp then
        mergeMatching ops (fun v => m.Matches v) vm
       else if m.mtype = MatchNotEqual then
        mergeMatching ops (fun v => v != m.value) vm
       else if m.mtype = MatchNotRegexp then
        mergeMatching ops (fun v => ! m.Matches v) vm
       else ops.empty) := by
  unfold HyperMinHashIndex.getSketchForMatcher
  rw [hf]

theorem getSketch_other {S : Type} {ops : SketchOps S} {idx : HmhIdx S}
    {m : Matcher} (h0 : ¬ m.mtype = MatchEqual) (h1 : ¬ m.mtype = MatchNotEqual)
    (h2 : ¬ m.mtype = MatchRegexp) (h3 : ¬ m.mtype = MatchNotRegexp) :
    HyperMinHashIndex.getSketchForMatcher ops idx m = ops.empty := by
  cases hf : mfind idx m.name with
  | none => exact getSketch_none hf
  | some vm => rw [getSketch_some hf, if_neg h0, if_neg h2, if_neg h1, if_neg h3]

theorem getCardinality_zero_of_mem_empty_bag (idx : BitmapIdx) (m : Matcher)
    (ms : List Matcher) (hm : m ∈ ms)
    (hbag : BitmapIndex.getUnionBitmapForMatcher idx m = ∅) :
    BitmapIndex.GetCardinality idx ms = 0 := by
  obtain ⟨m0, rest, rfl⟩ := List.exists_cons_of_ne_nil (List.ne_nil_of_mem hm)
  rw [getCardinality_cons]
  have hz : rest.foldl (fun a x => a ∩ BitmapIndex.getUnionBitmapForMatcher idx x)
      (BitmapIndex.getUnionBitmapForMatcher idx m0) = ∅ := by
    apply Finset.eq_empty_of_forall_not_mem
    intro r hr
    rw [mem_foldl_inter] at hr
    have hrm : r ∈ BitmapIndex.getUnionBitmapForMatcher idx m := by
      rcases List.mem_cons.1 hm with h | h
      · subst h
        exact hr.1
      · exact hr.2 m h
    rw [hbag] at hrm
    exact absurd hrm (Finset.not_mem_empty r)
  rw [hz]
  simp

/-- C5: a matcher whose label name is not a key of the per-label map yields
the empty selector bag in both indexes, and on the bitmap index any
conjunction containing such a matcher has cardinality 0. -/
theorem unknown_label_name_empty_bag (S : Type) (ops : SketchOps S)
    (idxB : BitmapIdx) (idxH : HmhIdx S) (m : Matcher)
    (hB : mfind idxB m.name = none) (hH : mfind idxH m.name = none) :
    BitmapIndex.getUnionBitmapForMatcher idxB m = ∅ ∧
    HyperMinHashIndex.getSketchForMatcher ops idxH m = ops.empty ∧
    ∀ ms, m ∈ ms → BitmapIndex.GetCardinality idxB ms = 0 :=
  ⟨getUnion_none hB, getSketch_none hH,
    fun ms hm => getCardinality_zero_of_mem_empty_bag idxB m ms hm (getUnion_none hB)⟩

/-- Witness for C5: the name `b` is absent from both concrete indexes. -/
theorem unknown_label_name_empty_bag_witness :
    mfind (buildBitmap [([("a", "1")], 1)]) "b" = none ∧
    mfind ([("a", [("1", ({5} : Finset Nat))])] : HmhIdx (Finset Nat)) "b" = none ∧
    (BitmapIndex.getUnionBitmapForMatcher (buildBitmap [([("a", "1")], 1)])
        (Matcher.mk "b" 0 "x" (fun _ => false)) = ∅ ∧
      HyperMinHashIndex.getSketchForMatcher FinsetSketch
        [("a", [("1", ({5} : Finset Nat))])]
        (Matcher.mk "b" 0 "x" (fun _ => false)) = FinsetSketch.empty ∧
      ∀ ms, Matcher.mk "b" 0 "x" (fun _ => false) ∈ ms →
        BitmapIndex.GetCardinality (buildBitmap [([("a", "1")], 1)]) ms = 0) :=
  ⟨rfl, rfl, unknown_label_name_empty_bag (Finset Nat) FinsetSketch _ _ _ rfl rfl⟩

/-- C4 counterexample: with the label name present in the index, a matcher
whose kind 7 lies outside the enumeration does not panic; the switch falls
through and `GetCardinality` returns the value 0. -/
theorem out_of_enum_kind_does_not_panic :
    BitmapIndex.GetCardinality (buildBitmap [([("a", "1")], 1)])
      [Matcher.mk "a" 7 "1" (fun _ => true)] = 0 := by
  have hbag : BitmapIndex.getUnionBitmapForMatcher
      (buildBitmap [([("a", "1")], 1)]) (Matcher.mk "a" 7 "1" (fun _ => true)) = ∅ :=
    getUnion_other (by decide) (by decide) (by decide) (by decide)
  exact getCardinality_zero_of_mem_empty_bag _ _ _ (List.mem_singleton.2 rfl) hbag

/-- C4 (amended): the indexes never panic; in particular a matcher kind
outside the enumeration {Equal, NotEqual, Regex, NotRegex} is not a panic
either — the switch has no default case, so the selector bag is empty in
both indexes and any bitmap conjunction containing the matcher returns 0. -/
theorem out_of_enum_kind_empty_bag (S : Type) (ops : SketchOps S)
    (idxB : BitmapIdx) (idxH : HmhIdx S) (m : Matcher)
    (h : m.mtype ∉ [MatchEqual, MatchNotEqual, MatchRegexp, MatchNotRegexp]) :
    BitmapIndex.getUnionBitmapForMatcher idxB m = ∅ ∧
    HyperMinHashIndex.getSketchForMatcher ops idxH m = ops.empty ∧
    ∀ ms, m ∈ ms → BitmapIndex.GetCardinality idxB ms = 0 := by
  simp only [List.mem_cons, List.not_mem_nil, or_false] at h
  push_neg at h
  obtain ⟨h0, h1, h2, h3⟩ := h
  refine ⟨getUnion_other h0 h1 h2 h3, getSketch_other h0 h1 h2 h3, ?_⟩
  intro ms hm
  exact getCardinality_zero_of_mem_empty_bag idxB m ms hm (getUnion_other h0 h1 h2 h3)

/-- Witness for C4's amended theorem at kind 7. -/
theorem out_of_enum_kind_empty_bag_witness :
    (Matcher.mk "a" 7 "1" (fun _ => true)).mtype ∉
      [MatchEqual, MatchNotEqual, MatchRegexp, MatchNotRegexp] ∧
    (BitmapIndex.getUnionBitmapForMatcher (buildBitmap [([("a", "1")], 1)])
        (Matcher.mk "a" 7 "1" (fun _ => true)) = ∅ ∧
      HyperMinHashIndex.getSketchForMatcher FinsetSketch
        [("a", [("1", ({5} : Finset Nat))])]
        (Matcher.mk "a" 7 "1" (fun _ => true)) = FinsetSketch.empty ∧
      ∀ ms, Matcher.mk "a" 7 "1" (fun _ => true) ∈ ms →
        BitmapIndex.GetCardinality (buildBitmap [([("a", "1")], 1)]) ms = 0) :=
  ⟨by decide, out_of_enum_kind_empty_bag (Finset Nat) FinsetSketch _ _ _ (by decide)⟩

theorem getCardinality_le_of_subset (idx : BitmapIdx) {ms ms' : List Matcher}
    (hsub : ∀ x ∈ ms', x ∈ ms) (hne : ms ≠ []) (hne' : ms' ≠ []) :
    BitmapIndex.GetCardinality idx ms ≤ BitmapIndex.GetCardinality idx ms' := by
  obtain ⟨m0, rest, rfl⟩ := List.exists_cons_of_ne_nil hne
  obtain ⟨m0', rest', rfl⟩ := List.exists_cons_of_ne_nil hne'
  rw [getCardinality_cons, getCardinality_cons]
  have hsubset :
      rest.foldl (fun a m => a ∩ BitmapIndex.getUnionBitmapForMatcher idx m)
          (BitmapIndex.getUnionBitmapForMatcher idx m0) ⊆
        rest'.foldl (fun a m => a ∩ BitmapIndex.getUnionBitmapForMatcher idx m)
          (BitmapIndex.getUnionBitmapForMatcher idx m0') := by
    intro r hr
    rw [mem_foldl_inter] at hr ⊢
    obtain ⟨h1, h2⟩ := hr
    have hall : ∀ m ∈ m0 :: rest, r ∈ BitmapIndex.getUnionBitmapForMatcher idx m := by
      intro m hm
      rcases List.mem_cons.1 hm with h | h
      · subst h
        exact h1
      · exact h2 m h
    exact ⟨hall m0' (hsub m0' (List.mem_cons_self _ _)),
      fun m hm => hall m (hsub m (List.mem_cons_of_mem _ hm))⟩
  exact_mod_cast Finset.card_le_card hsubset

/-- C8: on the bitmap index, appending a matcher to a non-empty list never
increases the result, and removing a matcher from a list (leaving it
non-empty) never decreases it. -/
theorem bitmap_getCardinality_monotone (idx : BitmapIdx) (ms : List Matcher)
    (m : Matcher) (hne : ms ≠ []) :
    BitmapIndex.GetCardinality idx (ms ++ [m]) ≤ BitmapIndex.GetCardinality idx ms ∧
    ∀ ms1 ms2, ms = ms1 ++ m :: ms2 → ms1 ++ ms2 ≠ [] →
      BitmapIndex.GetCardinality idx ms ≤
        BitmapIndex.GetCardinality idx (ms1 ++ ms2) := by
  constructor
  · refine getCardinality_le_of_subset idx ?_ ?_ hne
    · intro x hx
      exact List.mem_append_left _ hx
    · simp
  · intro ms1 ms2 heq hne2
    subst heq
    refine getCardinality_le_of_subset idx ?_ (by simp) hne2
    intro x hx
    rcases List.mem_append.1 hx with h | h
    · exact List.mem_append_left _ h
    · exact List.mem_append_right _ (List.mem_cons_of_mem _ h)

/-- Witness for C8 on a concrete index and matcher lists. -/
theorem bitmap_getCardinality_monotone_witness :
    ([Matcher.mk "a" 0 "1" (fun _ => false)] : List Matcher) ≠ [] ∧
    (BitmapIndex.GetCardinality (buildBitmap [([("a", "1")], 1), ([("b", "2")], 2)])
        ([Matcher.mk "a" 0 "1" (fun _ => false)] ++
          [Matcher.mk "b" 0 "2" (fun _ => false)]) ≤
      BitmapIndex.GetCardinality (buildBitmap [([("a", "1")], 1), ([("b", "2")], 2)])
        [Matcher.mk "a" 0 "1" (fun _ => false)] ∧
    ∀ ms1 ms2,
      [Matcher.mk "a" 0 "1" (fun _ => false)] =
        ms1 ++ Matcher.mk "b" 0 "2" (fun _ => false) :: ms2 →
      ms1 ++ ms2 ≠ [] →
      BitmapIndex.GetCardinality (buildBitmap [([("a", "1")], 1), ([("b", "2")], 2)])
          [Matcher.mk "a" 0 "1" (fun _ => false)] ≤
        BitmapIndex.GetCardinality (buildBitmap [([("a", "1")], 1), ([("b", "2")], 2)])
          (ms1 ++ ms2)) :=
  ⟨by simp, bitmap_getCardinality_monotone _ _ _ (by simp)⟩

/-- C10: the public `HyperMinHashIndex.GetCardinality` always returns the
pairwise-Jaccard estimate, for every sketch implementation, index state and
matcher list; and the inclusion-exclusion estimator is a genuinely different
function, as a concrete instance shows, so the public result never comes
from it. -/
theorem hmh_getCardinality_is_jaccard :
    (∀ (S : Type) (ops : SketchOps S) (idx : HmhIdx S) (ms : List Matcher),
      HyperMinHashIndex.GetCardinality ops idx ms =
        HyperMinHashIndex.cardinalityUsingJacaards ops idx ms) ∧
    ∃ (ops : SketchOps (Finset Nat)) (idx : HmhIdx (Finset Nat))
      (ms : List Matcher),
      HyperMinHashIndex.GetCardinality ops idx ms ≠
        HyperMinHashIndex.cardinalityUsingInclusionExclusion ops idx ms := by
  refine ⟨fun _ _ _ _ => rfl, ?_⟩
  refine ⟨FinsetSketch,
    [("a", [("x", ({1, 2} : Finset Nat))]),
     ("b", [("x", ({1, 3} : Finset Nat))]),
     ("c", [("x", ({2, 3} : Finset Nat))])],
    [Matcher.mk "a" 0 "x" (fun _ => false), Matcher.mk "b" 0 "x" (fun _ => false),
     Matcher.mk "c" 0 "x" (fun _ => false)], ?_⟩
  decide

/-!  The pairwise-Jaccard estimator is the minimum over the first sketch's
cardinality and all pairwise intersection estimates. -/

theorem ite_lt_eq_min (a b : Int) : (if a < b then a else b) = min b a := by
  by_cases h : a < b
  · rw [if_pos h, min_eq_right (le_of_lt h)]
  · rw [if_neg h, min_eq_left (le_of_not_lt h)]

theorem jacInner_foldl {S : Type} (ops : SketchOps S) (s : S) (card : Int)
    (ts : List S) :
    HyperMinHashIndex.jacInner ops s card ts =
      (ts.map (fun t => ((ops.inter s t : Nat) : Int))).foldl min card := by
  induction ts generalizing card with
  | nil => rfl
  | cons t rest ih =>
    have hstep : HyperMinHashIndex.jacInner ops s card (t :: rest) =
        HyperMinHashIndex.jacInner ops s
          (if ((ops.inter s t : Nat) : Int) < card then ((ops.inter s t : Nat) : Int)
           else card) rest := rfl
    rw [hstep, ih, List.map_cons, List.foldl_cons, ite_lt_eq_min]

theorem jacOuter_foldl {S : Type} (ops : SketchOps S) (card : Int)
    (sks : List S) :
    HyperMinHashIndex.jacOuter ops card sks =
      (pairInters ops sks).foldl min card := by
  induction sks generalizing card with
  | nil => rfl
  | cons s rest ih =>
    have hstep : HyperMinHashIndex.jacOuter ops card (s :: rest) =
        HyperMinHashIndex.jacOuter ops
          (HyperMinHashIndex.jacInner ops s card rest) rest := rfl
    rw [hstep, ih, jacInner_foldl]
    have hpair : pairInters ops (s :: rest) =
        rest.map (fun t => ((ops.inter s t : Nat) : Int)) ++ pairInters ops rest := rfl
    rw [hpair, List.foldl_append]

theorem foldl_min_le_init (l : List Int) (a : Int) : l.foldl min a ≤ a := by
  induction l generalizing a with
  | nil => exact le_refl a
  | cons x rest ih =>
    rw [List.foldl_cons]
    exact (ih (min a x)).trans (min_le_left a x)

theorem foldl_min_le_mem {l : List Int} {x : Int} (hx : x ∈ l) (a : Int) :
    l.foldl min a ≤ x := by
  induction l generalizing a with
  | nil => simp at hx
  | cons y rest ih =>
    rw [List.foldl_cons]
    rcases List.mem_cons.1 hx with h | h
    · subst h
      exact (foldl_min_le_init rest (min a x)).trans (min_le_right a x)
    · exact ih h (min a y)

theorem foldl_min_mem (l : List Int) (a : Int) :
    l.foldl min a = a ∨ l.foldl min a ∈ l := by
  induction l generalizing a with
  | nil => exact Or.inl rfl
  | cons y rest ih =>
    rw [List.foldl_cons]
    rcases ih (min a y) with h | h
    · rcases min_choice a y with h2 | h2
      · exact Or.inl (h.trans h2)
      · refine Or.inr ?_
        rw [h, h2]
        exact List.mem_cons_self _ _
    · exact Or.inr (List.mem_cons_of_mem _ h)

/-- C3: for a non-empty matcher list, the pairwise-Jaccard estimator
returns the minimum of (a) the estimated cardinality of the first
selector-bag sketch and (b) the pairwise intersection estimates of all
unordered pairs `(i, j)` with `i < j`: it equals the running minimum of
that collection, is a lower bound of it, and is attained inside it. -/
theorem jaccard_estimator_min (S : Type) (ops : SketchOps S) (idx : HmhIdx S)
    (ms : List Matcher) (hne : ms ≠ []) :
    HyperMinHashIndex.cardinalityUsingJacaards ops idx ms =
      (pairInters ops (ms.map (HyperMinHashIndex.getSketchForMatcher ops idx))).foldl
        min
        ((ops.card ((ms.map (HyperMinHashIndex.getSketchForMatcher ops idx)).headD
          ops.empty) : Nat) : Int) ∧
    HyperMinHashIndex.cardinalityUsingJacaards ops idx ms ≤
      ((ops.card ((ms.map (HyperMinHashIndex.getSketchForMatcher ops idx)).headD
        ops.empty) : Nat) : Int) ∧
    (∀ x ∈ pairInters ops (ms.map (HyperMinHashIndex.getSketchForMatcher ops idx)),
      HyperMinHashIndex.cardinalityUsingJacaards ops idx ms ≤ x) ∧
    (HyperMinHashIndex.cardinalityUsingJacaards ops idx ms =
        ((ops.card ((ms.map (HyperMinHashIndex.getSketchForMatcher ops idx)).headD
          ops.empty) : Nat) : Int) ∨
      HyperMinHashIndex.cardinalityUsingJacaards ops idx ms ∈
        pairInters ops (ms.map (HyperMinHashIndex.getSketchForMatcher ops idx))) := by
  obtain ⟨m0, rest, rfl⟩ := List.exists_cons_of_ne_nil hne
  have hstep : HyperMinHashIndex.cardinalityUsingJacaards ops idx (m0 :: rest) =
      HyperMinHashIndex.jacOuter ops
        ((ops.card (((m0 :: rest).map
          (HyperMinHashIndex.getSketchForMatcher ops idx)).headD ops.empty) : Nat) : Int)
        ((m0 :: rest).map (HyperMinHashIndex.getSketchForMatcher ops idx)) := rfl
  rw [hstep, jacOuter_foldl]
  exact ⟨rfl, foldl_min_le_init _ _, fun x hx => foldl_min_le_mem hx _,
    foldl_min_mem _ _⟩

/-- Witness for C3 on a concrete sketch index with two matchers. -/
theorem jaccard_estimator_min_witness :
    ([Matcher.mk "a" 0 "x" (fun _ => false), Matcher.mk "b" 0 "x" (fun _ => false)] :
      List Matcher) ≠ [] ∧
    HyperMinHashIndex.cardinalityUsingJacaards FinsetSketch
        [("a", [("x", ({1, 2} : Finset Nat))]), ("b", [("x", ({2, 3} : Finset Nat))])]
        [Matcher.mk "a" 0 "x" (fun _ => false), Matcher.mk "b" 0 "x" (fun _ => false)] =
      (pairInters FinsetSketch
        ([Matcher.mk "a" 0 "x" (fun _ => false), Matcher.mk "b" 0 "x" (fun _ => false)].map
          (HyperMinHashIndex.getSketchForMatcher FinsetSketch
            [("a", [("x", ({1, 2} : Finset Nat))]),
             ("b", [("x", ({2, 3} : Finset Nat))])]))).foldl
        min
        ((FinsetSketch.card
          (([Matcher.mk "a" 0 "x" (fun _ => false),
             Matcher.mk "b" 0 "x" (fun _ => false)].map
            (HyperMinHashIndex.getSketchForMatcher FinsetSketch
              [("a", [("x", ({1, 2} : Finset Nat))]),
               ("b", [("x", ({2, 3} : Finset Nat))])])).headD
            FinsetSketch.empty) : Nat) : Int) :=
  ⟨by simp,
    (jaccard_estimator_min (Finset Nat) FinsetSketch
      [("a", [("x", ({1, 2} : Finset Nat))]), ("b", [("x", ({2, 3} : Finset Nat))])]
      [Matcher.mk "a" 0 "x" (fun _ => false), Matcher.mk "b" 0 "x" (fun _ => false)]
      (by simp)).1⟩

/-!  The inclusion-exclusion estimator is the signed sum over all non-empty
subsets of matchers. -/

theorem foldl_add_eq_sum (g : Nat → Int) (l : List Nat) (a : Int) :
    l.foldl (fun r s => r + g s) a = a + (l.map g).sum := by
  induction l generalizing a with
  | nil => simp
  | cons x rest ih =>
    rw [List.foldl_cons, ih, List.map_cons, List.sum_cons]
    ring

theorem sum_map_range'_one (g : Nat → Int) (k : Nat) :
    ((List.range' 1 k).map g).sum = ∑ s ∈ Finset.Ico 1 (1 + k), g s := by
  induction k with
  | zero => simp
  | succ k ih =>
    rw [List.range'_1_concat, List.map_append, List.sum_append, ih]
    have harr : 1 + (k + 1) = (1 + k) + 1 := by omega
    rw [harr, Finset.sum_Ico_succ_top (by omega)]
    simp

theorem signed_term_eq (k : Nat) (c : Int) :
    (if k % 2 = 1 then c else -c) = (-1 : Int) ^ (k + 1) * c := by
  by_cases h : k % 2 = 1
  · rw [if_pos h]
    have hodd : Odd k := Nat.odd_iff.2 h
    rw [Even.neg_one_pow hodd.add_one]
    ring
  · rw [if_neg h]
    have heven : Even k := Nat.even_iff.2 (by omega)
    rw [Odd.neg_one_pow heven.add_one]
    ring

/-- C7: for a non-empty list of `n` matchers, the inclusion-exclusion
estimator equals the sum, over all `2^n - 1` non-empty subsets (bitmasks
`1 .. 2^n - 1`), of the estimated cardinality of the merge of the subset's
selector-bag sketches, signed `(-1)^(size+1)`; and the result is not
clamped: a concrete sketch implementation drives it negative. -/
theorem inclusion_exclusion_estimator (S : Type) (ops : SketchOps S)
    (idx : HmhIdx S) (ms : List Matcher) (hne : ms ≠ []) :
    (HyperMinHashIndex.cardinalityUsingInclusionExclusion ops idx ms =
      ∑ s ∈ Finset.Ico 1 (2 ^ ms.length),
        (-1 : Int) ^ (bitCount ms.length s + 1) *
          ((ops.card (HyperMinHashIndex.mergeSubset ops idx ms s) : Nat) : Int)) ∧
    ∃ (ops2 : SketchOps Nat) (idx2 : HmhIdx Nat) (ms2 : List Matcher),
      ms2 ≠ [] ∧
      HyperMinHashIndex.cardinalityUsingInclusionExclusion ops2 idx2 ms2 < 0 := by
  constructor
  · obtain ⟨m0, rest, rfl⟩ := List.exists_cons_of_ne_nil hne
    have hstep :
        HyperMinHashIndex.cardinalityUsingInclusionExclusion ops idx (m0 :: rest) =
        (List.range' 1 (2 ^ (m0 :: rest).length - 1)).foldl
          (fun result subset =>
            if bitCount (m0 :: rest).length subset % 2 = 1 then
              result +
                ((ops.card (HyperMinHashIndex.mergeSubset ops idx (m0 :: rest)
                  subset) : Nat) : Int)
            else
              result -
                ((ops.card (HyperMinHashIndex.mergeSubset ops idx (m0 :: rest)
                  subset) : Nat) : Int))
          0 := rfl
    rw [hstep]
    have hbody : (fun (result : Int) (subset : Nat) =>
        if bitCount (m0 :: rest).length subset % 2 = 1 then
          result +
            ((ops.card (HyperMinHashIndex.mergeSubset ops idx (m0 :: rest)
              subset) : Nat) : Int)
        else
          result -
            ((ops.card (HyperMinHashIndex.mergeSubset ops idx (m0 :: rest)
              subset) : Nat) : Int)) =
        (fun (result : Int) (subset : Nat) =>
          result + (-1 : Int) ^ (bitCount (m0 :: rest).length subset + 1) *
            ((ops.card (HyperMinHashIndex.mergeSubset ops idx (m0 :: rest)
              subset) : Nat) : Int)) := by
      funext result subset
      rw [← signed_term_eq]
      by_cases h : bitCount (m0 :: rest).length subset % 2 = 1
      · rw [if_pos h, if_pos h]
      · rw [if_neg h, if_neg h]
        ring
    rw [hbody, foldl_add_eq_sum, sum_map_range'_one]
    have hpow : 1 ≤ 2 ^ (m0 :: rest).length := Nat.one_le_two_pow
    have harr : 1 + (2 ^ (m0 :: rest).length - 1) = 2 ^ (m0 :: rest).length := by
      omega
    rw [harr]
    ring
  · refine ⟨⟨0, fun s _ => s, fun a b => a + b, fun s => s * s, fun _ _ => 0⟩,
      [("a", [("x", 1)]), ("b", [("x", 1)])],
      [Matcher.mk "a" 0 "x" (fun _ => false), Matcher.mk "b" 0 "x" (fun _ => false)],
      by simp, by decide⟩

/-- Witness for C7 on a concrete sketch index with two matchers. -/
theorem inclusion_exclusion_estimator_witness :
    ([Matcher.mk "a" 0 "x" (fun _ => false), Matcher.mk "b" 0 "x" (fun _ => false)] :
      List Matcher) ≠ [] ∧
    ((HyperMinHashIndex.cardinalityUsingInclusionExclusion FinsetSketch
        [("a", [("x", ({1, 2} : Finset Nat))]), ("b", [("x", ({2, 3} : Finset Nat))])]
        [Matcher.mk "a" 0 "x" (fun _ => false), Matcher.mk "b" 0 "x" (fun _ => false)] =
      ∑ s ∈ Finset.Ico 1
          (2 ^ ([Matcher.mk "a" 0 "x" (fun _ => false),
                 Matcher.mk "b" 0 "x" (fun _ => false)] : List Matcher).length),
        (-1 : Int) ^ (bitCount ([Matcher.mk "a" 0 "x" (fun _ => false),
            Matcher.mk "b" 0 "x" (fun _ => false)] : List Matcher).length s + 1) *
          ((FinsetSketch.card (HyperMinHashIndex.mergeSubset FinsetSketch
            [("a", [("x", ({1, 2} : Finset Nat))]),
             ("b", [("x", ({2, 3} : Finset Nat))])]
            [Matcher.mk "a" 0 "x" (fun _ => false),
             Matcher.mk "b" 0 "x" (fun _ => false)] s) : Nat) : Int)) ∧
    ∃ (ops2 : SketchOps Nat) (idx2 : HmhIdx Nat) (ms2 : List Matcher),
      ms2 ≠ [] ∧
      HyperMinHashIndex.cardinalityUsingInclusionExclusion ops2 idx2 ms2 < 0) :=
  ⟨by simp,
    inclusion_exclusion_estimator (Finset Nat) FinsetSketch
      [("a", [("x", ({1, 2} : Finset Nat))]), ("b", [("x", ({2, 3} : Finset Nat))])]
      [Matcher.mk "a" 0 "x" (fun _ => false), Matcher.mk "b" 0 "x" (fun _ => false)]
      (by simp)⟩

/-!  Idempotence of ingest. -/

theorem mset_self {α : Type} {m : List (String × α)} {k : String} {v : α}
    (h : mfind m k = some v) : mset m k v = m := by
  induction m with
  | nil => simp [mfind] at h
  | cons p rest ih =>
    obtain ⟨k1, v1⟩ := p
    by_cases h1 : k1 = k
    · subst h1
      simp [mfind] at h
      subst h
      simp [mset]
    · simp only [mfind, if_neg h1] at h
      simp [mset, h1, ih h]

theorem addLabel_id {idx : BitmapIdx} {n v : String} {r : Nat}
    (h : r ∈ blookup idx n v) : BitmapIndex.addLabel idx n v r = idx := by
  rw [addLabel_eq]
  rw [blookup_eq_getD] at h
  cases hf : mfind idx n with
  | none =>
    exfalso
    rw [hf] at h
    simp [mfind] at h
  | some vm =>
    rw [hf] at h
    simp only [Option.getD_some] at h
    cases hg : mfind vm v with
    | none =>
      exfalso
      rw [hg] at h
      simp at h
    | some bm =>
      rw [hg] at h
      simp only [Option.getD_some] at h
      simp only [Option.getD_some]
      rw [hg]
      simp only [Option.getD_some]
      rw [Finset.insert_eq_self.2 h, mset_self hg, mset_self hf]

theorem bitmap_AddSeries_id {idx : BitmapIdx} {lbls : Labels} {ref : Nat}
    (h : ∀ l ∈ lbls, ref ∈ blookup idx l.1 l.2) :
    BitmapIndex.AddSeries idx lbls ref = idx := by
  unfold BitmapIndex.AddSeries
  induction lbls with
  | nil => rfl
  | cons l rest ih =>
    rw [List.foldl_cons, addLabel_id (h l (List.mem_cons_self _ _))]
    exact ih (fun p hp => h p (List.mem_cons_of_mem _ hp))

theorem hmh_addLabel_eq {S : Type} (ops : SketchOps S) (idx : HmhIdx S)
    (n v : String) (hb : Nat) :
    HyperMinHashIndex.addLabel ops idx n v hb =
      mset idx n (mset ((mfind idx n).getD []) v
        (ops.add ((mfind ((mfind idx n).getD []) v).getD ops.empty) hb)) := rfl

theorem hmh_AddSeries_eq {S : Type} (ops : SketchOps S) (hashFn : Labels → Nat)
    (idx : HmhIdx S) (lbls : Labels) (ref : Nat) :
    HyperMinHashIndex.AddSeries ops hashFn idx lbls ref =
      lbls.foldl
        (fun i p => HyperMinHashIndex.addLabel ops i p.1 p.2 (hashFn lbls)) idx := rfl

theorem hmh_addLabel_self_form {S : Type} (ops : SketchOps S) (idx : HmhIdx S)
    (n v : String) (hb : Nat) :
    ∃ s0, slookup (HyperMinHashIndex.addLabel ops idx n v hb) n v =
      some (ops.add s0 hb) := by
  rw [hmh_addLabel_eq, slookup_mset2, if_pos ⟨rfl, rfl⟩]
  exact ⟨_, rfl⟩

theorem hmh_fold_preserves_form {S : Type} (ops : SketchOps S) (idx : HmhIdx S)
    (lbls : Labels) (hb : Nat) (n v : String)
    (h : ∃ s0, slookup idx n v = some (ops.add s0 hb)) :
    ∃ s1, slookup
      (lbls.foldl (fun i p => HyperMinHashIndex.addLabel ops i p.1 p.2 hb) idx)
      n v = some (ops.add s1 hb) := by
  induction lbls generalizing idx with
  | nil => exact h
  | cons l rest ih =>
    rw [List.foldl_cons]
    apply ih
    rw [hmh_addLabel_eq, slookup_mset2]
    by_cases hc : l.1 = n ∧ l.2 = v
    · rw [if_pos hc]
      exact ⟨_, rfl⟩
    · rw [if_neg hc]
      exact h

theorem hmh_fold_form {S : Type} (ops : SketchOps S) (idx : HmhIdx S)
    (lbls : Labels) (hb : Nat) :
    ∀ l ∈ lbls, ∃ s0,
      slookup (lbls.foldl (fun i p => HyperMinHashIndex.addLabel ops i p.1 p.2 hb) idx)
        l.1 l.2 = some (ops.add s0 hb) := by
  induction lbls generalizing idx with
  | nil =>
    intro l hl
    simp at hl
  | cons l0 rest ih =>
    intro l hl
    rw [List.foldl_cons]
    rcases List.mem_cons.1 hl with h | h
    · subst h
      exact hmh_fold_preserves_form ops _ rest hb l.1 l.2
        (hmh_addLabel_self_form ops idx l.1 l.2 hb)
    · exact ih _ l h

theorem hmh_addLabel_id {S : Type} (ops : SketchOps S) {idx : HmhIdx S}
    {n v : String} {hb : Nat}
    (h : ∃ s, slookup idx n v = some s ∧ ops.add s hb = s) :
    HyperMinHashIndex.addLabel ops idx n v hb = idx := by
  obtain ⟨s, hs, hadd⟩ := h
  rw [hmh_addLabel_eq]
  unfold slookup at hs
  cases hf : mfind idx n with
  | none =>
    rw [hf] at hs
    simp at hs
  | some vm =>
    rw [hf] at hs
    simp at hs
    simp only [Option.getD_some]
    rw [hs]
    simp only [Option.getD_some]
    rw [hadd, mset_self hs, mset_self hf]

theorem hmh_fold_id {S : Type} (ops : SketchOps S) {idx : HmhIdx S}
    {lbls : Labels} {hb : Nat}
    (h : ∀ l ∈ lbls, ∃ s, slookup idx l.1 l.2 = some s ∧ ops.add s hb = s) :
    lbls.foldl (fun i p => HyperMinHashIndex.addLabel ops i p.1 p.2 hb) idx = idx := by
  induction lbls with
  | nil => rfl
  | cons l rest ih =>
    rw [List.foldl_cons, hmh_addLabel_id ops (h l (List.mem_cons_self _ _))]
    exact ih (fun p hp => h p (List.mem_cons_of_mem _ hp))

/-- C9: calling `AddSeries` twice with the same labels and the same
reference leaves the index state exactly as after one call, for the bitmap
index unconditionally and for the sketch index whenever the sketch's `Add`
is idempotent (as a deterministic min/max-register sketch's is). -/
theorem addSeries_idempotent (S : Type) (ops : SketchOps S)
    (hashFn : Labels → Nat) (idxB : BitmapIdx) (idxH : HmhIdx S)
    (lbls : Labels) (ref : Nat)
    (hadd : ∀ s x, ops.add (ops.add s x) x = ops.add s x) :
    BitmapIndex.AddSeries (BitmapIndex.AddSeries idxB lbls ref) lbls ref =
      BitmapIndex.AddSeries idxB lbls ref ∧
    HyperMinHashIndex.AddSeries ops hashFn
        (HyperMinHashIndex.AddSeries ops hashFn idxH lbls ref) lbls ref =
      HyperMinHashIndex.AddSeries ops hashFn idxH lbls ref := by
  constructor
  · apply bitmap_AddSeries_id
    intro l hl
    rw [mem_blookup_AddSeries]
    refine Or.inr ⟨rfl, ?_⟩
    have hp : (l.1, l.2) = l := rfl
    rw [hp]
    exact hl
  · rw [hmh_AddSeries_eq ops hashFn idxH lbls ref,
      hmh_AddSeries_eq ops hashFn _ lbls ref]
    apply hmh_fold_id
    intro l hl
    obtain ⟨s0, hs0⟩ := hmh_fold_form ops idxH lbls (hashFn lbls) l hl
    exact ⟨ops.add s0 (hashFn lbls), hs0, hadd s0 (hashFn lbls)⟩

/-- Witness for C9 with the exact finite-set sketch, whose `Add` is
idempotent. -/
theorem addSeries_idempotent_witness :
    (∀ (s : Finset Nat) (x : Nat),
      FinsetSketch.add (FinsetSketch.add s x) x = FinsetSketch.add s x) ∧
    (BitmapIndex.AddSeries (BitmapIndex.AddSeries [] [("a", "1")] 7) [("a", "1")] 7 =
      BitmapIndex.AddSeries [] [("a", "1")] 7 ∧
    HyperMinHashIndex.AddSeries FinsetSketch (fun _ => 0)
        (HyperMinHashIndex.AddSeries FinsetSketch (fun _ => 0) [] [("a", "1")] 7)
        [("a", "1")] 7 =
      HyperMinHashIndex.AddSeries FinsetSketch (fun _ => 0) [] [("a", "1")] 7) :=
  ⟨fun s x => by simp [FinsetSketch],
    addSeries_idempotent (Finset Nat) FinsetSketch (fun _ => 0) [] [] [("a", "1")] 7
      (fun s x => by simp [FinsetSketch])⟩

/-!  Frame properties of the heap model: `GetCardinality` never mutates a
stored per-value aggregate. -/

theorem hget_append {α : Type} (h t : List α) (d : α) (p : Nat)
    (hp : p < h.length) : hget (h ++ t) d p = hget h d p := by
  unfold hget
  rw [List.getD_eq_getElem?_getD, List.getD_eq_getElem?_getD,
    List.getElem?_append_left hp]

theorem hget_set_ne {α : Type} (h : List α) (d : α) (u p : Nat) (a : α)
    (hne : u ≠ p) : hget (h.set u a) d p = hget h d p := by
  unfold hget
  rw [List.getD_eq_getElem?_getD, List.getD_eq_getElem?_getD,
    List.getElem?_set_ne hne]

theorem orInto_length (h : List Bitmap) (u bp : Nat) :
    (orInto h u bp).length = h.length := by
  unfold orInto
  exact List.length_set h u _

theorem orInto_frame (h : List Bitmap) (u bp p : Nat) (hne : u ≠ p) :
    hget (orInto h u bp) ∅ p = hget h ∅ p := by
  unfold orInto
  exact hget_set_ne h ∅ u p _ hne

theorem orEqual_length (h : List Bitmap) (u : Nat) (o : Option Nat) :
    (orEqual h u o).length = h.length := by
  cases o with
  | none => rfl
  | some bp => exact orInto_length h u bp

theorem orEqual_frame (h : List Bitmap) (u : Nat) (o : Option Nat) (p : Nat)
    (hne : u ≠ p) : hget (orEqual h u o) ∅ p = hget h ∅ p := by
  cases o with
  | none => rfl
  | some bp => exact orInto_frame h u bp p hne

theorem orMatching_length (pred : String → Bool) (h : List Bitmap) (u : Nat)
    (vm : List (String × Nat)) : (orMatching pred h u vm).length = h.length := by
  induction vm generalizing h with
  | nil => rfl
  | cons q rest ih =>
    unfold orMatching
    rw [List.foldl_cons]
    by_cases hq : pred q.1
    · rw [if_pos hq]
      have hfold := ih (orInto h u q.2)
      unfold orMatching at hfold
      rw [hfold, orInto_length]
    · rw [if_neg hq]
      have hfold := ih h
      unfold orMatching at hfold
      rw [hfold]

theorem orMatching_frame (pred : String → Bool) (h : List Bitmap) (u : Nat)
    (vm : List (String × Nat)) (p : Nat) (hne : u ≠ p) :
    hget (orMatching pred h u vm) ∅ p = hget h ∅ p := by
  induction vm generalizing h with
  | nil => rfl
  | cons q rest ih =>
    unfold orMatching
    rw [List.foldl_cons]
    by_cases hq : pred q.1
    · rw [if_pos hq]
      have hfold := ih (orInto h u q.2)
      unfold orMatching at hfold
      rw [hfold, orInto_frame h u q.2 p hne]
    · rw [if_neg hq]
      have hfold := ih h
      unfold orMatching at hfold
      rw [hfold]

theorem getUnionH_none {h : List Bitmap} {idx : BitmapIdxH} {m : Matcher}
    (hf : mfind idx m.name = none) :
    BitmapIndex.getUnionBitmapForMatcherH h idx m = (h ++ [∅], h.length) := by
  unfold BitmapIndex.getUnionBitmapForMatcherH
  rw [hf]
  rfl

theorem getUnionH_some {h : List Bitmap} {idx : BitmapIdxH} {m : Matcher}
    {vm : List (String × Nat)} (hf : mfind idx m.name = some vm) :
    BitmapIndex.getUnionBitmapForMatcherH h idx m =
      (if m.mtype = MatchEqual then
        (orEqual (h ++ [∅]) h.length (mfind vm m.value), h.length)
       else if m.mtype = MatchRegexp then
        (orMatching (fun v => m.Matches v) (h ++ [∅]) h.length vm, h.length)
       else if m.mtype = MatchNotEqual then
        (orMatching (fun v => v != m.value) (h ++ [∅]) h.length vm, h.length)
       else if m.mtype = MatchNotRegexp then
        (orMatching (fun v => ! m.Matches v) (h ++ [∅]) h.length vm, h.length)
       else (h ++ [∅], h.length)) := by
  unfold BitmapIndex.getUnionBitmapForMatcherH
  rw [hf]
  rfl

theorem getUnionH_spec (h : List Bitmap) (idx : BitmapIdxH) (m : Matcher) :
    (BitmapIndex.getUnionBitmapForMatcherH h idx m).1.length = h.length + 1 ∧
    (BitmapIndex.getUnionBitmapForMatcherH h idx m).2 = h.length ∧
    ∀ p, p < h.length →
      hget (BitmapIndex.getUnionBitmapForMatcherH h idx m).1 ∅ p = hget h ∅ p := by
  have hne : ∀ p, p < h.length → h.length ≠ p := fun p hp => Nat.ne_of_gt hp
  have happ : ∀ p, p < h.length → hget (h ++ [∅]) ∅ p = hget h ∅ p :=
    fun p hp => hget_append h [∅] ∅ p hp
  have hlapp : (h ++ [∅]).length = h.length + 1 := by simp
  cases hf : mfind idx m.name with
  | none =>
    rw [getUnionH_none hf]
    exact ⟨hlapp, rfl, happ⟩
  | some vm =>
    rw [getUnionH_some hf]
    by_cases h0 : m.mtype = MatchEqual
    · rw [if_pos h0]
      refine ⟨by rw [orEqual_length, hlapp], rfl, ?_⟩
      intro p hp
      rw [orEqual_frame _ _ _ p (hne p hp), happ p hp]
    · rw [if_neg h0]
      by_cases h2 : m.mtype = MatchRegexp
      · rw [if_pos h2]
        refine ⟨by rw [orMatching_length, hlapp], rfl, ?_⟩
        intro p hp
        rw [orMatching_frame _ _ _ _ p (hne p hp), happ p hp]
      · rw [if_neg h2]
        by_cases h1 : m.mtype = MatchNotEqual
        · rw [if_pos h1]
          refine ⟨by rw [orMatching_length, hlapp], rfl, ?_⟩
          intro p hp
          rw [orMatching_frame _ _ _ _ p (hne p hp), happ p hp]
        · rw [if_neg h1]
          by_cases h3 : m.mtype = MatchNotRegexp
          · rw [if_pos h3]
            refine ⟨by rw [orMatching_length, hlapp], rfl, ?_⟩
            intro p hp
            rw [orMatching_frame _ _ _ _ p (hne p hp), happ p hp]
          · rw [if_neg h3]
            exact ⟨hlapp, rfl, happ⟩

theorem intersectLoopH_frame (idx : BitmapIdxH) (ms : List Matcher) :
    ∀ (h : List Bitmap) (u0 n : Nat), n ≤ h.length → n ≤ u0 →
      ∀ p, p < n →
        hget (BitmapIndex.intersectLoopH idx h u0 ms).1 ∅ p = hget h ∅ p := by
  induction ms with
  | nil =>
    intro h u0 n hn hu p hp
    rfl
  | cons m rest ih =>
    intro h u0 n hn hu p hp
    obtain ⟨hrlen, hru, hrframe⟩ := getUnionH_spec h idx m
    have hplt : p < h.length := lt_of_lt_of_le hp hn
    have hpu : u0 ≠ p := fun hc => absurd hp (by omega)
    simp only [BitmapIndex.intersectLoopH]
    by_cases hc : hget ((BitmapIndex.getUnionBitmapForMatcherH h idx m).1.set u0
        (hget (BitmapIndex.getUnionBitmapForMatcherH h idx m).1 ∅ u0 ∩
          hget (BitmapIndex.getUnionBitmapForMatcherH h idx m).1 ∅
            (BitmapIndex.getUnionBitmapForMatcherH h idx m).2)) ∅ u0 = ∅
    · rw [if_pos hc]
      rw [hget_set_ne _ ∅ u0 p _ hpu, hrframe p hplt]
    · rw [if_neg hc]
      have hlen2 : n ≤ ((BitmapIndex.getUnionBitmapForMatcherH h idx m).1.set u0
          (hget (BitmapIndex.getUnionBitmapForMatcherH h idx m).1 ∅ u0 ∩
            hget (BitmapIndex.getUnionBitmapForMatcherH h idx m).1 ∅
              (BitmapIndex.getUnionBitmapForMatcherH h idx m).2)).length := by
        rw [List.length_set, hrlen]
        omega
      rw [ih _ u0 n hlen2 hu p hp]
      rw [hget_set_ne _ ∅ u0 p _ hpu, hrframe p hplt]

theorem getCardinalityH_frame (h : List Bitmap) (idx : BitmapIdxH)
    (ms : List Matcher) :
    ∀ p, p < h.length →
      hget (BitmapIndex.GetCardinalityH h idx ms).1 ∅ p = hget h ∅ p := by
  intro p hp
  cases ms with
  | nil => rfl
  | cons m rest =>
    obtain ⟨hrlen, hru, hrframe⟩ := getUnionH_spec h idx m
    have hstep : BitmapIndex.GetCardinalityH h idx (m :: rest) =
        BitmapIndex.intersectLoopH idx
          (BitmapIndex.getUnionBitmapForMatcherH h idx m).1
          (BitmapIndex.getUnionBitmapForMatcherH h idx m).2 rest := rfl
    rw [hstep]
    have hlen : h.length ≤ (BitmapIndex.getUnionBitmapForMatcherH h idx m).1.length := by
      omega
    have hu : h.length ≤ (BitmapIndex.getUnionBitmapForMatcherH h idx m).2 := by
      omega
    rw [intersectLoopH_frame idx rest _ _ h.length hlen hu p hp, hrframe p hp]

theorem heapExt_refl {α : Type} (d : α) (h : List α) : HeapExt d h h :=
  ⟨le_refl _, fun _ _ => rfl⟩

theorem heapExt_trans {α : Type} (d : α) {h1 h2 h3 : List α}
    (a : HeapExt d h1 h2) (b : HeapExt d h2 h3) : HeapExt d h1 h3 :=
  ⟨a.1.trans b.1, fun p hp => (b.2 p (lt_of_lt_of_le hp a.1)).trans (a.2 p hp)⟩

theorem heapExt_append {α : Type} (d : α) (h t : List α) : HeapExt d h (h ++ t) :=
  ⟨by simp, fun p hp => hget_append h t d p hp⟩

theorem mergeAlloc_ext {S : Type} (ops : SketchOps S) (h : List S) (rp hp : Nat) :
    HeapExt ops.empty h (mergeAlloc ops h rp hp).1 :=
  heapExt_append ops.empty h _

theorem mergeEqual_ext {S : Type} (ops : SketchOps S) (h : List S) (rp : Nat)
    (o : Option Nat) : HeapExt ops.empty h (mergeEqual ops h rp o).1 := by
  cases o with
  | none => exact heapExt_refl _ _
  | some hp => exact mergeAlloc_ext ops h rp hp

theorem mergeAllocMatching_ext {S : Type} (ops : SketchOps S)
    (pred : String → Bool) (vm : List (String × Nat)) :
    ∀ (h : List S) (rp : Nat),
      HeapExt ops.empty h (mergeAllocMatching ops pred h rp vm).1 := by
  induction vm with
  | nil =>
    intro h rp
    exact heapExt_refl _ _
  | cons q rest ih =>
    intro h rp
    unfold mergeAllocMatching
    rw [List.foldl_cons]
    by_cases hq : pred q.1
    · rw [if_pos hq]
      have hrest := ih (mergeAlloc ops h rp q.2).1 (mergeAlloc ops h rp q.2).2
      unfold mergeAllocMatching at hrest
      exact heapExt_trans ops.empty (mergeAlloc_ext ops h rp q.2) hrest
    · rw [if_neg hq]
      have hrest := ih h rp
      unfold mergeAllocMatching at hrest
      exact hrest

theorem getSketchH_none {S : Type} {ops : SketchOps S} {h : List S}
    {idx : HmhIdxH} {m : Matcher} (hf : mfind idx m.name = none) :
    HyperMinHashIndex.getSketchForMatcherH ops h idx m =
      (h ++ [ops.empty], h.length) := by
  unfold HyperMinHashIndex.getSketchForMatcherH
  rw [hf]
  rfl

theorem getSketchH_some {S : Type} {ops : SketchOps S} {h : List S}
    {idx : HmhIdxH} {m : Matcher} {vm : List (String × Nat)}
    (hf : mfind idx m.name = some vm) :
    HyperMinHashIndex.getSketchForMatcherH ops h idx m =
      (if m.mtype = MatchEqual then
        mergeEqual ops (h ++ [ops.empty]) h.length (mfind vm m.value)
       else if m.mtype = MatchRegexp then
        mergeAllocMatching ops (fun v => m.Matches v) (h ++ [ops.empty]) h.length vm
       else if m.mtype = MatchNotEqual then
        mergeAllocMatching ops (fun v => v != m.value) (h ++ [ops.empty]) h.length vm
       else if m.mtype = MatchNotRegexp then
        mergeAllocMatching ops (fun v => ! m.Matches v) (h ++ [ops.empty]) h.length vm
       else (h ++ [ops.empty], h.length)) := by
  unfold HyperMinHashIndex.getSketchForMatcherH
  rw [hf]
  rfl

theorem getSketchH_ext {S : Type} (ops : SketchOps S) (h : List S)
    (idx : HmhIdxH) (m : Matcher) :
    HeapExt ops.empty h (HyperMinHashIndex.getSketchForMatcherH ops h idx m).1 := by
  have happ : HeapExt ops.empty h (h ++ [ops.empty]) := heapExt_append _ _ _
  cases hf : mfind idx m.name with
  | none =>
    rw [getSketchH_none hf]
    exact happ
  | some vm =>
    rw [getSketchH_some hf]
    by_cases h0 : m.mtype = MatchEqual
    · rw [if_pos h0]
      exact heapExt_trans _ happ (mergeEqual_ext ops _ _ _)
    · rw [if_neg h0]
      by_cases h2 : m.mtype = MatchRegexp
      · rw [if_pos h2]
        exact heapExt_trans _ happ (mergeAllocMatching_ext ops _ vm _ _)
      · rw [if_neg h2]
        by_cases h1 : m.mtype = MatchNotEqual
        · rw [if_pos h1]
          exact heapExt_trans _ happ (mergeAllocMatching_ext ops _ vm _ _)
        · rw [if_neg h1]
          by_cases h3 : m.mtype = MatchNotRegexp
          · rw [if_pos h3]
            exact heapExt_trans _ happ (mergeAllocMatching_ext ops _ vm _ _)
          · rw [if_neg h3]
            exact happ

theorem sketchesLoopH_ext {S : Type} (ops : SketchOps S) (idx : HmhIdxH)
    (ms : List Matcher) :
    ∀ h : List S, HeapExt ops.empty h
      (HyperMinHashIndex.sketchesLoopH ops h idx ms).1 := by
  induction ms with
  | nil =>
    intro h
    exact heapExt_refl _ _
  | cons m rest ih =>
    intro h
    have hstep : (HyperMinHashIndex.sketchesLoopH ops h idx (m :: rest)).1 =
        (HyperMinHashIndex.sketchesLoopH ops
          (HyperMinHashIndex.getSketchForMatcherH ops h idx m).1 idx rest).1 := rfl
    rw [hstep]
    exact heapExt_trans _ (getSketchH_ext ops h idx m) (ih _)

theorem jacaardsH_heap {S : Type} (ops : SketchOps S) (h : List S)
    (idx : HmhIdxH) (ms : List Matcher) :
    HeapExt ops.empty h (HyperMinHashIndex.cardinalityUsingJacaardsH ops h idx ms).1 := by
  cases ms with
  | nil => exact heapExt_refl _ _
  | cons m rest =>
    have hstep : (HyperMinHashIndex.cardinalityUsingJacaardsH ops h idx (m :: rest)).1 =
        (HyperMinHashIndex.sketchesLoopH ops h idx (m :: rest)).1 := rfl
    rw [hstep]
    exact sketchesLoopH_ext ops idx (m :: rest) h

/-- C6: `GetCardinality` never mutates a stored per-value aggregate.  In the
heap model every pre-existing heap cell — in particular every bitmap or
sketch the inverted map points to — holds the same value after the query;
the bitmap path only `Or`s into and `And`s the freshly allocated union
bitmaps, and the sketch path only allocates fresh merge results.  (The
inverted maps themselves are read-only inputs of the query path.) -/
theorem getCardinality_frame (S : Type) (ops : SketchOps S)
    (hB : List Bitmap) (idxB : BitmapIdxH) (hS : List S) (idxH : HmhIdxH)
    (ms : List Matcher) :
    (∀ p, p < hB.length →
      hget (BitmapIndex.GetCardinalityH hB idxB ms).1 ∅ p = hget hB ∅ p) ∧
    ∀ p, p < hS.length →
      hget (HyperMinHashIndex.GetCardinalityH ops hS idxH ms).1 ops.empty p =
        hget hS ops.empty p :=
  ⟨fun p hp => getCardinalityH_frame hB idxB ms p hp,
    fun p hp => (jacaardsH_heap ops hS idxH ms).2 p hp⟩

/-- Witness for C6: the stored aggregates at cell 0 survive a concrete
query on both indexes. -/
theorem getCardinality_frame_witness :
    (0 < ([({1, 2} : Finset Nat)] : List Bitmap).length ∧
      hget (BitmapIndex.GetCardinalityH [({1, 2} : Finset Nat)]
        [("a", [("1", 0)])]
        [Matcher.mk "a" 0 "1" (fun _ => false)]).1 ∅ 0 =
        hget [({1, 2} : Finset Nat)] ∅ 0) ∧
    0 < ([({3} : Finset Nat)] : List (Finset Nat)).length ∧
      hget (HyperMinHashIndex.GetCardinalityH FinsetSketch [({3} : Finset Nat)]
        [("a", [("1", 0)])]
        [Matcher.mk "a" 0 "1" (fun _ => false)]).1 FinsetSketch.empty 0 =
        hget [({3} : Finset Nat)] FinsetSketch.empty 0 :=
  ⟨⟨by decide,
    (getCardinality_frame (Finset Nat) FinsetSketch [({1, 2} : Finset Nat)]
      [("a", [("1", 0)])] [({3} : Finset Nat)] [("a", [("1", 0)])]
      [Matcher.mk "a" 0 "1" (fun _ => false)]).1 0 (by decide)⟩,
   by decide,
    (getCardinality_frame (Finset Nat) FinsetSketch [({1, 2} : Finset Nat)]
      [("a", [("1", 0)])] [({3} : Finset Nat)] [("a", [("1", 0)])]
      [Matcher.mk "a" 0 "1" (fun _ => false)]).2 0 (by decide)⟩
